import Mathlib

/-!
Verification of the argsh bash-minifier pipeline (src/minifier).

Strings are modelled as `List Char` (`Str`).  Each Rust function of the
minifier is embedded as a Lean function of the same name; simple regexes
used by the Rust code (compiled with `Regex::new`) are embedded as
dedicated character-level matchers with the same match semantics, and the
obfuscator's rule table is executed by a small Pike-VM regex engine that
mirrors the leftmost-first semantics of the `regex` crate.
-/

set_option maxRecDepth 100000
set_option maxHeartbeats 4000000

abbrev Str := List Char

/-- Left brace character, kept as a named constant. -/
def lbr : Char := Char.ofNat 123

/-- Right brace character, kept as a named constant. -/
def rbr : Char := Char.ofNat 125

/-- Single-quote character. -/
def sqc : Char := Char.ofNat 39

/-- Double-quote character. -/
def dq : Char := '"'

/-- Backslash character. -/
def bsl : Char := Char.ofNat 92

/-- Rust regex word-character class (ASCII): 0-9, A-Z, a-z, underscore. -/
def isWordChar (c : Char) : Bool :=
  ('a' ≤ c && c ≤ 'z') || ('A' ≤ c && c ≤ 'Z') || ('0' ≤ c && c ≤ '9') || c = '_'

/-- Rust regex whitespace class and (on ASCII input) Rust `char::is_whitespace`:
space, tab, newline, carriage return, vertical tab, form feed. -/
def isSpaceChar (c : Char) : Bool :=
  c = ' ' || c = '\t' || c = '\n' || c = '\r' || c = Char.ofNat 11 || c = Char.ofNat 12

/-- Character class of space and tab. -/
def isBlankChar (c : Char) : Bool := c = ' ' || c = '\t'

/-- ASCII lowercase a-z. -/
def isLowerChar (c : Char) : Bool := 'a' ≤ c && c ≤ 'z'

/-- Character class a-z, 0-9, underscore: the continuation class of discovered variable names. -/
def isVarChar (c : Char) : Bool := isLowerChar c || ('0' ≤ c && c ≤ '9') || c = '_'

/-- Split a string at every newline; always returns one more segment than
there are newlines. -/
def splitNl : Str → List Str
  | [] => [[]]
  | c :: cs =>
    if c = '\n' then [] :: splitNl cs
    else match splitNl cs with
      | [] => [[c]]
      | s :: ss => (c :: s) :: ss

/-- Remove a single trailing carriage return (the `\r` of a `\r\n` ending). -/
def dropCr (l : Str) : Str :=
  if l.getLast? = some '\r' then l.dropLast else l

/-- Rust str::lines and BufRead::lines: split on `\n`, strip a trailing
`\r` from each line, and drop the final empty segment (the final line
ending is optional). -/
def strLines (s : Str) : List Str :=
  if s = [] then []
  else (if (splitNl s).getLast? = some [] then (splitNl s).dropLast
        else splitNl s).map dropCr

/-- Rust slice join with a newline separator. -/
def joinNl (ls : List Str) : Str := (ls.intersperse ['\n']).flatten

/-- Rust str::trim (ASCII whitespace). -/
def rustTrim (l : Str) : Str :=
  ((l.dropWhile isSpaceChar).reverse.dropWhile isSpaceChar).reverse

/-- Rust str::trim_start. -/
def rustTrimStart (l : Str) : Str := l.dropWhile isSpaceChar

/-- Rust str::trim_end. -/
def rustTrimEnd (l : Str) : Str := (l.reverse.dropWhile isSpaceChar).reverse

/-- Rust str::starts_with. -/
def startsWith : Str → Str → Bool
  | _, [] => true
  | [], _ :: _ => false
  | c :: cs, p :: ps => c = p && startsWith cs ps

/-- Whether `needle` occurs as a contiguous substring of `hay`. -/
def containsSub (hay needle : Str) : Bool :=
  match hay with
  | [] => startsWith [] needle
  | _ :: cs => startsWith hay needle || containsSub cs needle

/-! ## Strip phase (src/minifier/src/strip.rs) -/

/-- Regex RE_COMMENT: `^[ \t]*#.*` (as a line test: leading blanks then `#`). -/
def reComment (l : Str) : Bool :=
  match l.dropWhile isBlankChar with
  | [] => false
  | c :: _ => c = '#'

/-- Regex RE_BLANK: `^[ \t]*$`. -/
def reBlank (l : Str) : Bool := l.all isBlankChar

/-- Helper: parse one-or-more regex `\w` characters, returning the run and
the rest; fails on an empty run. -/
def parseWordRun (l : Str) : Option (Str × Str) :=
  if l.takeWhile isWordChar = [] then none
  else some (l.takeWhile isWordChar, l.dropWhile isWordChar)

/-- Regex RE_IMPORT_CALL: `^[ \t]*import\s+\w+\s*$`. -/
def reImportCall (l : Str) : Bool :=
  let l := l.dropWhile isBlankChar
  if startsWith l ("import".data) then
    let r := l.drop 6
    let sp := r.takeWhile isSpaceChar
    if sp = [] then false
    else
      match parseWordRun (r.dropWhile isSpaceChar) with
      | none => false
      | some (_, rest) => rest.all isSpaceChar
  else false

/-- Regex RE_IMPORT_DEF: `^[ \t]*import\(\)\s*\{.+\}\s*$`.  After `import()`
and optional whitespace comes `{`; the remainder must contain a `}` whose
suffix is all whitespace, with at least one `.`-matchable (non-newline)
character between the braces.  Only the last `}` can have an all-whitespace
suffix, so the candidate split is unique. -/
def reImportDef (l : Str) : Bool :=
  let l := l.dropWhile isBlankChar
  if startsWith l ("import()".data) then
    let r := (l.drop 8).dropWhile isSpaceChar
    match r with
    | [] => false
    | c :: body =>
      if c = lbr then
        -- body must be `.+ } \s*` : strip trailing whitespace, expect `}`,
        -- and require a nonempty newline-free interior.
        let t := rustTrimEnd body
        match t.getLast? with
        | some c2 =>
          c2 = rbr && t.dropLast ≠ [] && (t.dropLast).all (· ≠ '\n')
        | none => false
      else false
  else false

/-- Regex RE_SET_PIPEFAIL: `^[ \t]*set -euo pipefail`. -/
def reSetPipefail (l : Str) : Bool :=
  startsWith (l.dropWhile isBlankChar) ("set -euo pipefail".data)

/-- Port of should_strip (strip.rs): full-line comment, blank line, bare import
call, single-line import function definition, or `set -euo pipefail`. -/
def should_strip (l : Str) : Bool :=
  reComment l || reBlank l || reImportCall l || reImportDef l || reSetPipefail l

/-- Skip the optional dash after the heredoc `<<`. -/
def heredocSkipDash : Str → Str
  | '-' :: r2 => r2
  | r => r

/-- Skip the optional opening quote of the heredoc delimiter. -/
def heredocSkipQuote : Str → Str
  | c :: r2 => if c = sqc || c = dq then r2 else c :: r2
  | [] => []

/-- One attempt of regex RE_HEREDOC at the current
position: `<<`, optional `-`, any whitespace, an optional quote, then the
captured word run.  The trailing `['"]?` (and join's extra `\s*`) never
affect whether a match exists nor the capture. -/
def heredocTryAt (l : Str) : Option Str :=
  match l with
  | '<' :: '<' :: r =>
    match parseWordRun (heredocSkipQuote ((heredocSkipDash r).dropWhile isSpaceChar)) with
    | some (w, _) => some w
    | none => none
  | _ => none

/-- Leftmost match of regex RE_HEREDOC in `l`, returning the captured
delimiter. -/
def heredocFind : Str → Option Str
  | [] => none
  | c :: cs =>
    match heredocTryAt (c :: cs) with
    | some w => some w
    | none => heredocFind cs

/-- Port of heredoc_outside_quotes (strip.rs, and the identical copy in join.rs):
scan with naive single/double-quote toggling; at a `<<` outside quotes,
search `RE_HEREDOC` over the suffix from that position.  The loop index
runs to `len - 1`, so a final character is never examined. -/
def heredoc_outside_quotes_go (inS inD : Bool) : Str → Option Str
  | [] => none
  | [_] => none
  | c :: d :: cs =>
    if c = sqc && !inD then heredoc_outside_quotes_go (!inS) inD (d :: cs)
    else if c = dq && !inS then heredoc_outside_quotes_go inS (!inD) (d :: cs)
    else if c = '<' && !inS && !inD && d = '<' then
      match heredocFind ('<' :: d :: cs) with
      | some cap => some cap
      | none => heredoc_outside_quotes_go inS inD (d :: cs)
    else heredoc_outside_quotes_go inS inD (d :: cs)

/-- Port of heredoc_outside_quotes (strip.rs lines 52-73). -/
def heredoc_outside_quotes (l : Str) : Option Str :=
  heredoc_outside_quotes_go false false l

/-- Regex RE_MIDLINE_SHEBANG, applied as replace_all with template $1, newline, #!/ . The pattern is
`(.)#!/`: any non-newline character directly followed by `#!/` gets a
newline inserted after it; scanning continues after each match. -/
def normalizeShebang : Str → Str
  | [] => []
  | c :: '#' :: '!' :: '/' :: rest =>
    if c = '\n' then c :: normalizeShebang ('#' :: '!' :: '/' :: rest)
    else c :: '\n' :: '#' :: '!' :: '/' :: normalizeShebang rest
  | c :: cs => c :: normalizeShebang cs

/-- Line loop of strip_lines (strip.rs lines 84-103), with the
active-heredoc state. -/
def strip_lines_go : Option Str → List Str → List Str
  | _, [] => []
  | some delim, line :: rest =>
    line :: (if rustTrim line = delim then strip_lines_go none rest
             else strip_lines_go (some delim) rest)
  | none, line :: rest =>
    let st := match heredoc_outside_quotes line with
      | some d => some d
      | none => none
    if should_strip line then strip_lines_go st rest
    else line :: strip_lines_go st rest

/-- Port of strip_lines (strip.rs lines 81-104): normalize mid-line shebangs,
then filter lines with heredoc pass-through. -/
def strip_lines (input : Str) : List Str :=
  strip_lines_go none (strLines (normalizeShebang input))

example : strip_lines (("\x7d#!/usr/bin/env bash\necho hello").data)
    = [[rbr], ("echo hello").data] := by decide

example : strip_lines (("cat <<EOF\n# not a comment\nEOF\necho after").data)
    = [("cat <<EOF").data, ("# not a comment").data, ("EOF").data, ("echo after").data] := by
  decide

example : strip_lines (("echo ").data ++ [dq] ++ ("not a <<EOF").data ++ [dq]
      ++ ("\n# c\necho after").data)
    = [("echo ").data ++ [dq] ++ ("not a <<EOF").data ++ [dq], ("echo after").data] := by
  decide

/-! ## Flatten phase (src/minifier/src/flatten.rs) -/

/-- Regex RE_LEADING_WS replace: drop the leading run of spaces and tabs. -/
def dropLeadingWs (l : Str) : Str := l.dropWhile isBlankChar

/-- Regex RE_TRAILING_SEMI replace with template $1: a non-semicolon
character followed by a final semicolon loses the semicolon (so a `;;`
terminator is preserved). -/
def dropTrailingSemi (l : Str) : Str :=
  match l.reverse with
  | ';' :: c :: _ => if c ≠ ';' then l.dropLast else l
  | _ => l

/-- Scan loop of strip_eol_comment (flatten.rs lines 25-46): walk the
characters with quote state; `prev` is the previous character (none at the
first position, standing for the Rust placeholder character). -/
def strip_eol_comment_go (inS inD : Bool) (prev : Option Char) (acc : Str) : Str → Option Str
  | [] => none
  | c :: cs =>
    if c = sqc && !inD && (inS || prev ≠ some bsl) then
      strip_eol_comment_go (!inS) inD (some c) (acc ++ [c]) cs
    else if c = dq && !inS && prev ≠ some bsl then
      strip_eol_comment_go inS (!inD) (some c) (acc ++ [c]) cs
    else if c = '#' && !inS && !inD
        && (match prev with | some p => isSpaceChar p | none => false)
        && (match cs with | d :: _ => isSpaceChar d | [] => false) then
      some (rustTrimEnd acc ++ [' '])
    else strip_eol_comment_go inS inD (some c) (acc ++ [c]) cs

/-- Port of strip_eol_comment (flatten.rs lines 19-48). -/
def strip_eol_comment (l : Str) : Str :=
  match strip_eol_comment_go false false none [] l with
  | some r => r
  | none => l

/-- Port of flatten_line (flatten.rs lines 54-59). -/
def flatten_line (l : Str) : Str :=
  strip_eol_comment (dropTrailingSemi (dropLeadingWs l))

/-- Line loop of flatten_lines (flatten.rs lines 62-80); heredoc detection
uses a plain RE_HEREDOC search (not quote-aware). -/
def flatten_lines_go : Option Str → List Str → List Str
  | _, [] => []
  | some delim, line :: rest =>
    line :: (if rustTrim line = delim then flatten_lines_go none rest
             else flatten_lines_go (some delim) rest)
  | none, line :: rest =>
    flatten_line line :: flatten_lines_go (heredocFind line) rest

/-- Port of flatten_lines (flatten.rs lines 62-80). -/
def flatten_lines (lines : List Str) : List Str := flatten_lines_go none lines

example : flatten_line (("  echo hello;").data) = ("echo hello").data := by decide
example : flatten_line (("pattern);;").data) = ("pattern);;").data := by decide
example : flatten_line (("echo hello # comment").data) = ("echo hello ").data := by decide
example : flatten_line (("echo ").data ++ [sqc] ++ ("a # b").data ++ [sqc])
    = ("echo ").data ++ [sqc] ++ ("a # b").data ++ [sqc] := by decide

/-! ## QuoteTracker (src/minifier/src/quote.rs) -/

/-- Scan loop of QuoteTracker::line_has_open_quote; `bs` counts the
consecutive backslashes immediately before the current character. -/
def line_has_open_quote_go (inS inD : Bool) (bs : Nat) : Str → Bool × Bool
  | [] => (inS, inD)
  | c :: cs =>
    let isEsc := if inS then false else bs % 2 = 1
    let bs' := if c = bsl then bs + 1 else 0
    if c = sqc && !inD && (inS || !isEsc) then line_has_open_quote_go (!inS) inD bs' cs
    else if c = dq && !inS && !isEsc then line_has_open_quote_go inS (!inD) bs' cs
    else line_has_open_quote_go inS inD bs' cs

/-- Port of QuoteTracker::line_has_open_quote (quote.rs lines 12-45). -/
def line_has_open_quote (l : Str) : Bool × Bool :=
  line_has_open_quote_go false false 0 l

example : line_has_open_quote (("echo hello").data) = (false, false) := by decide
example : line_has_open_quote (("echo ").data ++ [sqc] ++ ("hello").data) = (true, false) := by
  decide
example : line_has_open_quote (("echo ").data ++ [sqc] ++ ("hello").data ++ [bsl] ++ [sqc])
    = (false, false) := by decide

/-! ## Join phase (src/minifier/src/join.rs) -/

/-- Regex RE_CASE_START: leading whitespace, the word `case`, then a word
boundary. -/
def reCaseStart (l : Str) : Bool :=
  let r := l.dropWhile isSpaceChar
  startsWith r ("case".data) &&
    (match r.drop 4 with | [] => true | c :: _ => !isWordChar c)

/-- Regex RE_ESAC, unanchored: some occurrence of `esac` followed by
whitespace, a semicolon, or the end of the line. -/
def reEsac : Str → Bool
  | [] => false
  | c :: cs =>
    (startsWith (c :: cs) ("esac".data) &&
      (match (c :: cs).drop 4 with | [] => true | d :: _ => isSpaceChar d || d = ';')) ||
    reEsac cs

/-- Regex RE_CASE_PATTERN with captures: a nonempty paren-free run, a
closing paren (group 1 is the run and paren), optional whitespace, then the
rest (group 2). -/
def reCasePattern (l : Str) : Option (Str × Str) :=
  let run := l.takeWhile (fun c => c ≠ '(' && c ≠ ')')
  if run = [] then none
  else match l.drop run.length with
    | ')' :: rest => some (run ++ [')'], rest.dropWhile isSpaceChar)
    | _ => none

/-- Match test of regex RE_DOUBLE_SEMI at one position: whitespace, `;;`,
then only whitespace and newlines up to the end. -/
def dsAt (l : Str) : Bool :=
  let r := l.dropWhile isSpaceChar
  startsWith r (";;".data) && (r.drop 2).all isSpaceChar

/-- Regex RE_DOUBLE_SEMI replace with the empty string: remove the leftmost
(and hence every) trailing `whitespace ;; whitespace-to-end` region. -/
def stripDoubleSemi : Str → Str
  | [] => []
  | c :: cs => if dsAt (c :: cs) then [] else c :: stripDoubleSemi cs

/-- Regex RE_ARRAY_OPEN: an `=(` occurrence with no closing paren after it. -/
def reArrayOpen : Str → Bool
  | [] => false
  | '=' :: '(' :: cs => cs.all (· ≠ ')') || reArrayOpen ('(' :: cs)
  | _ :: cs => reArrayOpen cs

/-- Regex RE_ARRAY_CLOSE: a closing paren followed only by whitespace. -/
def reArrayClose (l : Str) : Bool :=
  match l.reverse.dropWhile isSpaceChar with
  | ')' :: _ => true
  | _ => false

/-- Regex RE_BACKSLASH_CONT: the line ends with a backslash. -/
def reBackslashCont (l : Str) : Bool := l.getLast? = some bsl

/-- Regex RE_TRAILING_OPERATOR: after trailing whitespace, the line ends in
a semicolon or in a character from the pipe, ampersand, open-brace,
open-paren class (a one-or-two run of that class is equivalent, for a match
test, to its final character being in the class). -/
def reTrailingOperator (l : Str) : Bool :=
  match l.reverse.dropWhile isSpaceChar with
  | c :: _ => c = '|' || c = '&' || c = lbr || c = '(' || c = ';'
  | [] => false

/-- Regex RE_LEADING_CLOSE: optional whitespace then a closing paren. -/
def reLeadingClose (l : Str) : Bool :=
  match l.dropWhile isSpaceChar with
  | ')' :: _ => true
  | _ => false

/-- Match test of regex RE_THEN_DO_ELSE at one position: whitespace, one of
the keywords `then`, `do`, `else` (tried in that order), then whitespace up
to the end.  Returns the keyword. -/
def tdeAt (l : Str) : Option Str :=
  let r := l.dropWhile isSpaceChar
  if startsWith r ("then".data) && (r.drop 4).all isSpaceChar then some ("then".data)
  else if startsWith r ("do".data) && (r.drop 2).all isSpaceChar then some ("do".data)
  else if startsWith r ("else".data) && (r.drop 4).all isSpaceChar then some ("else".data)
  else none

/-- Leftmost match of regex RE_THEN_DO_ELSE: returns the text before the
match (the replace-with-empty result) and the captured keyword. -/
def tdeGo (acc : Str) : Str → Option (Str × Str)
  | [] => none
  | c :: cs =>
    match tdeAt (c :: cs) with
    | some kw => some (acc, kw)
    | none => tdeGo (acc ++ [c]) cs

/-- Heredoc copy loop of join_newlines (join.rs lines 85-92): emit lines
verbatim, each with a newline, up to and including the delimiter line;
returns the emitted text and the remaining lines. -/
def join_heredoc (delim : Str) : List Str → Str × List Str
  | [] => ([], [])
  | l :: ls =>
    if rustTrim l = delim then (l ++ ['\n'], ls)
    else
      let (s, rest) := join_heredoc delim ls
      (l ++ '\n' :: s, rest)

/-- Array join loop of join_newlines (join.rs lines 105-112). -/
def join_array : List Str → Str × List Str
  | [] => ([], [])
  | l :: ls =>
    if reArrayClose l then (' ' :: rustTrim l, ls)
    else
      let (s, rest) := join_array ls
      (' ' :: rustTrim l ++ s, rest)

/-- Bash newline-concatenation idiom emitted between rejoined quoted lines:
dollar, quote, backslash, n, quote. -/
def nlIdiom : Str := ['$', sqc, bsl, 'n', sqc]

/-- Open-quote join loop of join_newlines (join.rs lines 161-171). -/
def join_quote (q : Char) : List Str → Str × List Str
  | [] => ([], [])
  | l :: ls =>
    if l.contains q then (l, ls)
    else
      let (s, rest) := join_quote q ls
      (l ++ [q] ++ nlIdiom ++ [q] ++ s, rest)

/-- Word-boundary test used by regex RE_KEYWORD_SEMI: boundary holds before
a word character when the previous character is absent or not a word
character. -/
def bdryOk : Option Char → Bool
  | none => true
  | some c => !isWordChar c

/-- Scan of fix_keyword_semicolons: replace every word-boundary-preceded
`then;`, `do;`, `else;` by the keyword and a space, continuing after the
semicolon (regex RE_KEYWORD_SEMI, replace_all with template $1 and a
space). -/
def fix_kw_go (prev : Option Char) : Str → Str
  | 't' :: 'h' :: 'e' :: 'n' :: ';' :: rest =>
    if bdryOk prev then 't' :: 'h' :: 'e' :: 'n' :: ' ' :: fix_kw_go (some ';') rest
    else 't' :: fix_kw_go (some 't') ('h' :: 'e' :: 'n' :: ';' :: rest)
  | 'd' :: 'o' :: ';' :: rest =>
    if bdryOk prev then 'd' :: 'o' :: ' ' :: fix_kw_go (some ';') rest
    else 'd' :: fix_kw_go (some 'd') ('o' :: ';' :: rest)
  | 'e' :: 'l' :: 's' :: 'e' :: ';' :: rest =>
    if bdryOk prev then 'e' :: 'l' :: 's' :: 'e' :: ' ' :: fix_kw_go (some ';') rest
    else 'e' :: fix_kw_go (some 'e') ('l' :: 's' :: 'e' :: ';' :: rest)
  | c :: cs => c :: fix_kw_go (some c) cs
  | [] => []

/-- Port of fix_keyword_semicolons (join.rs lines 255-257). -/
def fix_keyword_semicolons (s : Str) : Str := fix_kw_go none s

/-- Pop trailing semicolons from a joined case body (join.rs lines 235-237). -/
def dropTrailingSemis (l : Str) : Str := (l.reverse.dropWhile (· = ';')).reverse

/-- Body collection loop of process_case (join.rs lines 218-226). -/
def collectBody (body : Str) : List Str → Str × List Str
  | [] => (body, [])
  | l :: ls =>
    let t := rustTrim l
    if containsSub t (";;".data) then (body ++ '\n' :: t, ls)
    else collectBody (body ++ '\n' :: t) ls

/-- Pattern loop of process_case (join.rs lines 197-244), fuelled because
it consumes a suffix of the line list; `joinInner` is the recursive
join_newlines call applied to collected bodies. -/
def process_case_go (joinInner : Str → Str) : Nat → List Str → Str × List Str
  | 0, ls => ([], ls)
  | _ + 1, [] => ([], [])
  | fuel + 1, l :: ls =>
    let line := rustTrim l
    if line = [] then process_case_go joinInner fuel ls
    else if reEsac line then (rustTrimEnd line ++ [';'], ls)
    else match reCasePattern line with
      | some (pat, b0) =>
        let (body, ls2) :=
          if containsSub b0 (";;".data) then (b0, ls) else collectBody b0 ls
        let jb := dropTrailingSemis (joinInner (stripDoubleSemi body))
        let (restS, ls3) := process_case_go joinInner fuel ls2
        (pat ++ jb ++ (";;\n".data) ++ restS, ls3)
      | none => process_case_go joinInner fuel ls

/-- Main statement loop of join_newlines (join.rs lines 77-179), fuelled
because several branches consume a suffix of the line list. -/
def join_go (joinInner : Str → Str) : Nat → List Str → Str
  | 0, _ => []
  | _ + 1, [] => []
  | fuel + 1, raw :: ls =>
    let line := rustTrimStart raw
    match heredoc_outside_quotes line with
    | some delim =>
      let (h, rest) := join_heredoc delim ls
      rustTrimEnd line ++ '\n' :: h ++ join_go joinInner fuel rest
    | none =>
      if reCaseStart line then
        let (cs, rest) := process_case_go joinInner (ls.length + 1) ls
        rustTrimEnd line ++ '\n' :: cs ++ join_go joinInner fuel rest
      else if reArrayOpen line then
        let (a, rest) := join_array ls
        rustTrimEnd line ++ a ++ ';' :: join_go joinInner fuel rest
      else if line.all isSpaceChar then join_go joinInner fuel ls
      else if reBackslashCont line then line.dropLast ++ join_go joinInner fuel ls
      else if reTrailingOperator line then rustTrimEnd line ++ ' ' :: join_go joinInner fuel ls
      else if reLeadingClose line then rustTrimEnd line ++ ';' :: join_go joinInner fuel ls
      else match tdeGo [] line with
        | some (pre, kw) => pre ++ kw ++ ' ' :: join_go joinInner fuel ls
        | none =>
          let (sqOpen, dqOpen) := line_has_open_quote line
          if sqOpen || dqOpen then
            let q := if sqOpen then sqc else dq
            let (qs, rest) := join_quote q ls
            line ++ [q] ++ nlIdiom ++ [q] ++ qs ++ ';' :: join_go joinInner fuel rest
          else rustTrimEnd line ++ ';' :: join_go joinInner fuel ls

/-- Port of join_newlines (join.rs lines 72-183), fuelled for the
recursive joining of case bodies; every result passes through
fix_keyword_semicolons, as in the source. -/
def join_newlines : Nat → Str → Str
  | 0, _ => fix_keyword_semicolons []
  | fuel + 1, input =>
    let lines := strLines input
    fix_keyword_semicolons (join_go (join_newlines fuel) (lines.length + 1) lines)

/-- Fuel that is always adequate for join_newlines on a given input. -/
def joinFuel (input : Str) : Nat := input.length + 1

example : join_newlines (joinFuel (("echo a\necho b\n").data)) (("echo a\necho b\n").data)
    = ("echo a;echo b;").data := by decide

example : join_newlines 20 (("if true; then\n  echo yes\nfi\n").data)
    = ("if true;then echo yes;fi;").data := by decide

example : join_newlines 20 (("cat <<EOF\nhello world\nEOF\necho done\n").data)
    = ("cat <<EOF\nhello world\nEOF\necho done;").data := by decide

/-! ## Discover phase (src/minifier/src/discover.rs) -/

/-- Regex RE_IGNORE_ANNOTATION: leading blanks then the ignore marker. -/
def reIgnoreAnnot (l : Str) : Bool :=
  startsWith (l.dropWhile isBlankChar) (("# obfus ignore variable").data)

/-- Regex RE_COMMENT_LINE: leading blanks then a hash. -/
def reCommentLine (l : Str) : Bool :=
  match l.dropWhile isBlankChar with
  | '#' :: _ => true
  | _ => false

/-- Regex RE_BLANK_LINE. -/
def reBlankLine (l : Str) : Bool := l.all isBlankChar

/-- Port of split_outside_quotes (discover.rs lines 49-67): split at
semicolons whose naive quote state is outside both quote kinds. -/
def split_outside_quotes_go (inS inD : Bool) (cur : Str) : Str → List Str
  | [] => [cur.reverse]
  | c :: cs =>
    if c = sqc && !inD then split_outside_quotes_go (!inS) inD (c :: cur) cs
    else if c = dq && !inS then split_outside_quotes_go inS (!inD) (c :: cur) cs
    else if c = ';' && !inS && !inD then cur.reverse :: split_outside_quotes_go inS inD [] cs
    else split_outside_quotes_go inS inD (c :: cur) cs

/-- Port of split_outside_quotes (discover.rs lines 49-67). -/
def split_outside_quotes (l : Str) : List Str := split_outside_quotes_go false false [] l

/-- Capture group of a discovered variable name: one lowercase letter then
a run of lowercase letters, digits and underscores. -/
def parseVarName : Str → Option (Str × Str)
  | [] => none
  | c :: cs =>
    if isLowerChar c then some (c :: cs.takeWhile isVarChar, cs.dropWhile isVarChar)
    else none

/-- Regex RE_ASSIGNMENT with capture: leading blanks, a variable name, an
equals sign. -/
def reAssignmentCap (l : Str) : Option Str :=
  match parseVarName (l.dropWhile isBlankChar) with
  | some (n, '=' :: _) => some n
  | _ => none

/-- Name-and-terminator test at the current position inside a local
declaration: a variable name followed by an equals sign, whitespace, or
the end. -/
def localNameHere (l : Str) : Bool :=
  match parseVarName l with
  | some (_, rest) =>
    match rest with
    | [] => true
    | c :: _ => c = '=' || isSpaceChar c
  | none => false

/-- Flag loop of regex RE_LOCAL: zero or more blanks or dash-letter flags,
then a name with its terminator (an existence search matching the regex
star's backtracking). -/
def localFlagsGo : Str → Bool
  | [] => false
  | c :: cs =>
    localNameHere (c :: cs) ||
    (if isBlankChar c then localFlagsGo cs
     else if c = '-' then
       match cs with
       | d :: ds => isWordChar d && localFlagsGo ds
       | [] => false
     else false)

/-- Regex RE_LOCAL, unanchored: at some position preceded by a blank (or
at the start), the word `local`, one whitespace, flags, then a name. -/
def reLocalGo (prevOk : Bool) : Str → Bool
  | [] => false
  | c :: cs =>
    (prevOk && startsWith (c :: cs) (("local").data) &&
      (match (c :: cs).drop 5 with
       | d :: ds => isSpaceChar d && localFlagsGo ds
       | [] => false)) ||
    reLocalGo (isBlankChar c) cs

/-- Regex RE_LOCAL is_match. -/
def reLocal (l : Str) : Bool := reLocalGo true l

/-- Regex RE_LOCAL_HAS_DECLARE, unanchored: `declare` preceded by a blank
or the start, followed by one whitespace. -/
def reDeclareGo (prevOk : Bool) : Str → Bool
  | [] => false
  | c :: cs =>
    (prevOk && startsWith (c :: cs) (("declare").data) &&
      (match (c :: cs).drop 7 with
       | d :: _ => isSpaceChar d
       | [] => false)) ||
    reDeclareGo (isBlankChar c) cs

/-- Regex RE_LOCAL_HAS_DECLARE is_match. -/
def reDeclare (l : Str) : Bool := reDeclareGo true l

/-- Greedy consumption of the flag star of RE_LOCAL_STRIP (blanks or
dash-letter flags). -/
def flagsConsume : Str → Str
  | [] => []
  | c :: cs =>
    if isBlankChar c then flagsConsume cs
    else if c = '-' then
      match cs with
      | d :: ds => if isWordChar d then flagsConsume ds else c :: cs
      | [] => c :: cs
    else c :: cs

/-- Replacement search of the local-strip regex (dot-star, `local`, one
whitespace, greedy flags): because the leading dot-star is greedy, the last
`local` occurrence wins; returns the remainder after the flags. -/
def stripLocalPreGo : Str → Option Str
  | [] => none
  | c :: cs =>
    match stripLocalPreGo cs with
    | some r => some r
    | none =>
      if startsWith (c :: cs) (("local").data) then
        match (c :: cs).drop 5 with
        | d :: ds => if isSpaceChar d then some (flagsConsume ds) else none
        | [] => none
      else none

/-- Replace-once with the empty string of the local-strip regex
(RE_LOCAL_STRIP in discover.rs); the line is unchanged when there is no
match. -/
def stripLocalPre (l : Str) : Str :=
  match stripLocalPreGo l with
  | some r => r
  | none => l

/-- Lookahead for a closing paren or brace before any newline. -/
def hasCloserNoNl : Str → Bool
  | [] => false
  | c :: cs =>
    if c = ')' || c = rbr then true
    else if c = '\n' then false
    else hasCloserNoNl cs

/-- Regex RE_PARENS replace_all with the empty string: each opening paren
or brace with a closer on the same line is removed together with the
shortest span up to that closer. -/
def stripParensGo : Bool → Str → Str
  | _, [] => []
  | true, c :: cs =>
    if c = ')' || c = rbr then stripParensGo false cs else stripParensGo true cs
  | false, c :: cs =>
    if (c = '(' || c = lbr) && hasCloserNoNl cs then stripParensGo true cs
    else c :: stripParensGo false cs

/-- Regex RE_PARENS replace_all. -/
def stripParens (l : Str) : Str := stripParensGo false l

/-- Regex RE_QUOTED replace_all with the empty string: each quote with a
matching closer is removed together with its span. -/
def stripQuotedGo : Option Char → Str → Str
  | _, [] => []
  | some q, c :: cs =>
    if c = q then stripQuotedGo none cs else stripQuotedGo (some q) cs
  | none, c :: cs =>
    if (c = dq || c = sqc) && cs.contains c then stripQuotedGo (some c) cs
    else c :: stripQuotedGo none cs

/-- Regex RE_QUOTED replace_all. -/
def stripQuoted (l : Str) : Str := stripQuotedGo none l

/-- Regex RE_EQUALS_VAL replace_all with the empty string: an equals sign
and the following run of non-whitespace characters are removed. -/
def stripEqValsGo : Bool → Str → Str
  | _, [] => []
  | true, c :: cs =>
    if !isSpaceChar c then stripEqValsGo true cs else c :: stripEqValsGo false cs
  | false, c :: cs =>
    if c = '=' then stripEqValsGo true cs else c :: stripEqValsGo false cs

/-- Regex RE_EQUALS_VAL replace_all. -/
def stripEqVals (l : Str) : Str := stripEqValsGo false l

/-- Rust str::split_whitespace. -/
def splitWsGo (cur : Str) : Str → List Str
  | [] => if cur = [] then [] else [cur.reverse]
  | c :: cs =>
    if isSpaceChar c then
      (if cur = [] then splitWsGo [] cs else cur.reverse :: splitWsGo [] cs)
    else splitWsGo (c :: cur) cs

/-- Rust str::split_whitespace. -/
def splitWs (l : Str) : List Str := splitWsGo [] l

/-- Regex RE_VAR_NAME full-string test: a complete variable name. -/
def varNameFull (w : Str) : Bool :=
  match parseVarName w with
  | some (_, rest) => rest.isEmpty
  | none => false

/-- Flag-star and name search of regex RE_READ, fuelled for the skipped
whitespace runs: dash-letter flags each followed by whitespace, then the
captured name. -/
def readFlagsName : Nat → Str → Option Str
  | 0, _ => none
  | f + 1, l =>
    match l with
    | '-' :: d :: ds =>
      if isWordChar d && (match ds with | e :: _ => isSpaceChar e | [] => false) then
        readFlagsName f (ds.dropWhile isSpaceChar)
      else none
    | _ => (parseVarName l).map (·.1)

/-- Match attempt of regex RE_READ at one position. -/
def readTry (l : Str) : Option Str :=
  if startsWith l (("read").data) then
    if (match l.drop 4 with | c :: _ => isSpaceChar c | [] => false) then
      readFlagsName (l.drop 4).length ((l.drop 4).dropWhile isSpaceChar)
    else none
  else none

/-- Regex RE_READ with capture, unanchored leftmost search. -/
def reReadCap : Str → Option Str
  | [] => none
  | c :: cs =>
    match readTry (c :: cs) with
    | some n => some n
    | none => reReadCap cs

/-- Regex RE_FOR with capture: leading blanks, `for`, whitespace, a name,
then one whitespace. -/
def reForCap (l : Str) : Option Str :=
  if startsWith (l.dropWhile isBlankChar) (("for").data) then
    if (match (l.dropWhile isBlankChar).drop 3 with
        | c :: _ => isSpaceChar c | [] => false) then
      match parseVarName (((l.dropWhile isBlankChar).drop 3).dropWhile isSpaceChar) with
      | some (n, d :: _) => if isSpaceChar d then some n else none
      | _ => none
    else none
  else none

/-- Interior search of regex RE_ARRAY after the opening bracket: a
close-bracket-equals pair with no newline crossed. -/
def arrGo : Str → Bool
  | [] => false
  | ']' :: '=' :: _ => true
  | '\n' :: _ => false
  | _ :: cs => arrGo cs

/-- Regex RE_ARRAY with capture: leading blanks, a name, an opening
bracket, at least one character, then a close-bracket-equals pair. -/
def reArrayCap (l : Str) : Option Str :=
  match parseVarName (l.dropWhile isBlankChar) with
  | some (n, '[' :: q) =>
    match q with
    | c :: cs => if c ≠ '\n' && arrGo cs then some n else none
    | [] => none
  | _ => none

/-- Regex RE_PRE_INCR with capture: blanks, two open parens, whitespace,
two signs, a name, whitespace, two close parens. -/
def rePreIncrCap (l : Str) : Option Str :=
  match l.dropWhile isBlankChar with
  | '(' :: '(' :: r2 =>
    match r2.dropWhile isSpaceChar with
    | s1 :: s2 :: r3 =>
      if (s1 = '-' || s1 = '+') && (s2 = '-' || s2 = '+') then
        match parseVarName r3 with
        | some (n, rest) =>
          match rest.dropWhile isSpaceChar with
          | ')' :: ')' :: _ => some n
          | _ => none
        | none => none
      else none
    | _ => none
  | _ => none

/-- Regex RE_POST_INCR with capture: blanks, two open parens, whitespace,
a name, two signs, whitespace, two close parens. -/
def rePostIncrCap (l : Str) : Option Str :=
  match l.dropWhile isBlankChar with
  | '(' :: '(' :: r2 =>
    match parseVarName (r2.dropWhile isSpaceChar) with
    | some (n, s1 :: s2 :: rest) =>
      if (s1 = '-' || s1 = '+') && (s2 = '-' || s2 = '+') then
        match rest.dropWhile isSpaceChar with
        | ')' :: ')' :: _ => some n
        | _ => none
      else none
    | _ => none
  | _ => none

/-- Set insertion modelling the Rust HashSet (order fixed by first
insertion; the final sort makes the order immaterial, because the
comparator is antisymmetric on the distinct collected names). -/
def insertVar (v : Str) (vs : List Str) : List Str :=
  if vs.contains v then vs else vs ++ [v]

/-- Port of discover_from_segment (discover.rs lines 122-177): the binding
patterns tried in priority order with early return. -/
def discover_from_segment (segment : Str) (vs : List Str) : List Str :=
  match reAssignmentCap segment with
  | some name => if name ≠ ("IFS").data then insertVar name vs else vs
  | none =>
  if !reDeclare segment && reLocal segment then
    let stripped := stripEqVals (stripQuoted (stripParens (stripLocalPre segment)))
    (splitWs stripped).foldl (fun acc w => if varNameFull w then insertVar w acc else acc) vs
  else match reReadCap segment with
  | some n => insertVar n vs
  | none =>
  match reForCap segment with
  | some n => insertVar n vs
  | none =>
  match reArrayCap segment with
  | some n => insertVar n vs
  | none =>
  match rePreIncrCap segment with
  | some n => insertVar n vs
  | none =>
  match rePostIncrCap segment with
  | some n => insertVar n vs
  | none => vs

/-- Segment loop of discover_variables (discover.rs lines 100-106). -/
def discoverSegments (vs : List Str) : List Str → List Str
  | [] => vs
  | seg :: rest =>
    if rustTrim seg = [] then discoverSegments vs rest
    else discoverSegments (discover_from_segment (rustTrim seg) vs) rest

/-- Line loop of discover_variables (discover.rs lines 84-107), with the
skip-next counter driven by the ignore annotation. -/
def discover_go (skipNext : Nat) (vs : List Str) : List Str → List Str
  | [] => vs
  | line :: rest =>
    if reIgnoreAnnot line then discover_go (skipNext + 1) vs rest
    else if skipNext > 0 then discover_go (skipNext - 1) vs rest
    else if reCommentLine line || reBlankLine line then discover_go skipNext vs rest
    else discover_go skipNext (discoverSegments vs (split_outside_quotes line)) rest

/-- Lexicographic less-or-equal on strings by character code (Rust string
comparison on ASCII input). -/
def lexLe : Str → Str → Bool
  | [], _ => true
  | _ :: _, [] => false
  | c :: cs, d :: ds =>
    if c.toNat < d.toNat then true
    else if d.toNat < c.toNat then false
    else lexLe cs ds

/-- Ordering used by discover_variables (discover.rs line 118): length
descending, ties broken by ascending string order. -/
def discoverLe (a b : Str) : Bool :=
  b.length < a.length || (decide (a.length = b.length) && lexLe a b)

/-- Relation form of the discover ordering, for the sort. -/
def DiscLe (a b : Str) : Prop := discoverLe a b = true

instance : DecidableRel DiscLe := fun a b => by
  unfold DiscLe; infer_instance

/-- Port of discover_variables (discover.rs lines 80-120): collect, filter
by the ignore patterns, and sort.  Rust's stable sort with an antisymmetric
comparator on distinct names is modelled by insertion sort under the same
ordering. -/
def discover_variables (source : Str) (ignore : List (Str → Bool)) : List Str :=
  ((discover_go 0 [] (strLines source)).filter
    (fun v => !ignore.any (fun re => re v))).insertionSort DiscLe

/-- Digits of a natural number (Rust integer formatting). -/
def natDigits (n : Nat) : Str := Nat.toDigits 10 n

/-- Port of build_rename_map (obfuscate.rs lines 11-17), as an association
list in variable order: the variable at position `i` maps to the prefix
followed by the digits of `i`. -/
def build_rename_map (sortedVars : List Str) (pre : Str) : List (Str × Str) :=
  sortedVars.enum.map fun p => (p.2, pre ++ natDigits p.1)

/-- Lookup in the rename map (Rust HashMap indexing). -/
def mapLookup (m : List (Str × Str)) (k : Str) : Str :=
  match m.find? (fun p => p.1 == k) with
  | some p => p.2
  | none => []

example : discover_variables (("ab=1\nabcde=2\nabc=3\n").data) []
    = [("abcde").data, ("abc").data, ("ab").data] := by decide

example : discover_variables (("# obfus ignore variable\nfoo=1\nbar=2\n").data) []
    = [("bar").data] := by decide

example : discover_variables (("local msg=\"hello; world\"\nx=1\n").data) []
    = [("msg").data, ("x").data] := by decide

example : discover_variables (("IFS=:\n").data) [] = [] := by decide

example : discover_variables (("read -s -r passwd\n").data) [] = [("passwd").data] := by decide

example : discover_variables (("(( counter++ ))\n(( --idx ))\n").data) []
    = [("counter").data, ("idx").data] := by decide

example : build_rename_map [("alias").data, ("a0").data] (("a").data)
    = [(("alias").data, ("a0").data), (("a0").data, ("a1").data)] := by decide


/-- Boolean consecutive-pair form of the discover ordering. -/
def sortedChain : List Str → Bool
  | [] => true
  | [_] => true
  | a :: b :: r => discoverLe a b && sortedChain (b :: r)

/-- Head-character test: the string is nonempty and starts with a lowercase
letter (the shape of every name captured by the discover matchers). -/
def lowerHead : Str → Bool
  | [] => false
  | c :: _ => isLowerChar c

/-- Invariant carried through the collection loop: no duplicates, and every
collected name starts with a lowercase letter. -/
def varsOk (vs : List Str) : Prop := vs.Nodup ∧ ∀ v ∈ vs, lowerHead v = true

/-- Well-formedness of a heredoc run for the strip phase: every line on
which a heredoc delimiter is detected survives the filter, and every opened
heredoc is closed by a matching delimiter line before the input ends. -/
def stripOkRun : Option Str → List Str → Bool
  | none, [] => true
  | some _, [] => false
  | some d, line :: rest =>
    if rustTrim line = d then stripOkRun none rest else stripOkRun (some d) rest
  | none, line :: rest =>
    match heredoc_outside_quotes line with
    | some d => !should_strip line && stripOkRun (some d) rest
    | none => stripOkRun none rest

/-- Head test for the mid-line-shebang pattern continuation `#!/`. -/
def quadTail : Str → Bool
  | '#' :: '!' :: '/' :: _ => true
  | _ => false

/-- Absence of a mid-line shebang: no non-newline character is directly
followed by `#!/` (the fixed points of normalizeShebang). -/
def midShebangFree : Str → Bool
  | [] => true
  | c :: '#' :: '!' :: '/' :: rest =>
    if c = '\n' then midShebangFree ('#' :: '!' :: '/' :: rest) else false
  | _ :: cs => midShebangFree cs

/-! ## A small Pike-VM regex engine

The obfuscator (src/minifier/src/obfuscate.rs) builds one regex per rule
and applies `Regex::replace` (first match).  The `regex` crate implements
leftmost-first (Perl-style priority) matching with a Pike VM over a
compiled NFA; the engine below mirrors that construction: alternation
prefers its left branch, greedy repetition prefers the body, thread lists
are kept in priority order and deduplicated per position, and a recorded
match kills lower-priority threads while letting higher-priority ones
continue. -/

/-- Character-class item. -/
inductive ClsItem where
  | chr (c : Char)
  | spaceCls
  | wordCls
deriving DecidableEq

/-- Character class with optional negation. -/
structure RCls where
  neg : Bool
  items : List ClsItem
deriving DecidableEq

/-- Single item match. -/
def clsItemMatches (c : Char) : ClsItem → Bool
  | .chr d => c = d
  | .spaceCls => isSpaceChar c
  | .wordCls => isWordChar c

/-- Class match (negation is exclusion). -/
def clsMatches (k : RCls) (c : Char) : Bool :=
  (k.items.any (clsItemMatches c)) != k.neg

/-- Regex abstract syntax. -/
inductive Reg where
  | eps
  | cls (k : RCls)
  | cat (a b : Reg)
  | alt (a b : Reg)
  | star (greedy : Bool) (r : Reg)
  | grp (n : Nat) (r : Reg)
  | bos
  | eos
  | wb

/-- Literal character. -/
def rLit (c : Char) : Reg := .cls ⟨false, [.chr c]⟩

/-- Literal string (regex-escaped literals are plain character sequences). -/
def rStr (s : Str) : Reg := s.foldr (fun c acc => .cat (rLit c) acc) .eps

/-- Concatenation of a rule list. -/
def rCat (l : List Reg) : Reg := l.foldr .cat .eps

/-- Positive character class. -/
def clsOf (items : List ClsItem) : Reg := .cls ⟨false, items⟩

/-- Negated character class (negated classes match newlines too). -/
def nclsOf (items : List ClsItem) : Reg := .cls ⟨true, items⟩

/-- Dot: any character but newline. -/
def rDot : Reg := .cls ⟨true, [.chr '\n']⟩

/-- Word character `\w`. -/
def rWordC : Reg := .cls ⟨false, [.wordCls]⟩

/-- Non-word character (capital W class). -/
def rNWordC : Reg := .cls ⟨true, [.wordCls]⟩

/-- Whitespace character class. -/
def rSpaceC : Reg := .cls ⟨false, [.spaceCls]⟩

/-- Greedy star. -/
def rStar (r : Reg) : Reg := .star true r

/-- Greedy plus. -/
def rPlus (r : Reg) : Reg := .cat r (.star true r)

/-- Greedy option. -/
def rOpt (r : Reg) : Reg := .alt r .eps

/-- NFA instruction. -/
inductive Instr where
  | chr (k : RCls)
  | split (a b : Nat)
  | jmp (t : Nat)
  | save (slot : Nat)
  | assertBos
  | assertEos
  | assertWb
  | done

/-- Compile a regex to instructions starting at the given address. -/
def compileReg : Reg → Nat → List Instr × Nat
  | .eps, pc => ([], pc)
  | .cls k, pc => ([.chr k], pc + 1)
  | .cat a b, pc =>
    let (ia, p1) := compileReg a pc
    let (ib, p2) := compileReg b p1
    (ia ++ ib, p2)
  | .alt a b, pc =>
    let (ia, pa) := compileReg a (pc + 1)
    let (ib, pb) := compileReg b (pa + 1)
    ([.split (pc + 1) (pa + 1)] ++ ia ++ [.jmp pb] ++ ib, pb)
  | .star greedy r, pc =>
    let (ir, pr) := compileReg r (pc + 1)
    ([.split (if greedy then pc + 1 else pr + 1) (if greedy then pr + 1 else pc + 1)]
      ++ ir ++ [.jmp pc], pr + 1)
  | .grp n r, pc =>
    let (ir, pr) := compileReg r (pc + 1)
    ([.save (2 * n)] ++ ir ++ [.save (2 * n + 1)], pr + 1)
  | .bos, pc => ([.assertBos], pc + 1)
  | .eos, pc => ([.assertEos], pc + 1)
  | .wb, pc => ([.assertWb], pc + 1)

/-- Capture slots: group `n` occupies slots `2n` and `2n+1`. -/
abbrev Caps := List (Option Nat)

/-- Number of capture slots (group 0 plus up to two rule groups). -/
def numSlots : Nat := 6

/-- A full program: group-0 save, the body, closing save, accept. -/
def regexCompile (r : Reg) : List Instr :=
  let (body, _) := compileReg r 1
  [Instr.save 0] ++ body ++ [Instr.save 1, Instr.done]

/-- Scan context at one input position. -/
structure VmCtx where
  pos : Nat
  atEnd : Bool
  prevW : Bool
  curW : Bool

/-- A runnable thread: program counter (at a character or accept
instruction) and its captures. -/
abbrev Thread := Nat × Caps

/-- Epsilon-closure insertion of a thread, with a per-position visited set;
priority order is preserved by appending. -/
def addThread (prog : List Instr) (ctx : VmCtx) :
    Nat → Nat → Caps → List Nat × List Thread → List Nat × List Thread
  | 0, _, _, st => st
  | f + 1, pc, caps, (vis, lst) =>
    if vis.contains pc then (vis, lst)
    else
      let vis := pc :: vis
      match prog.get? pc with
      | some (.jmp t) => addThread prog ctx f t caps (vis, lst)
      | some (.split a b) =>
        let st := addThread prog ctx f a caps (vis, lst)
        addThread prog ctx f b caps st
      | some (.save s) =>
        addThread prog ctx f (pc + 1) (caps.set s (some ctx.pos)) (vis, lst)
      | some .assertBos =>
        if ctx.pos = 0 then addThread prog ctx f (pc + 1) caps (vis, lst)
        else (vis, lst)
      | some .assertEos =>
        if ctx.atEnd then addThread prog ctx f (pc + 1) caps (vis, lst)
        else (vis, lst)
      | some .assertWb =>
        if ctx.prevW != ctx.curW then addThread prog ctx f (pc + 1) caps (vis, lst)
        else (vis, lst)
      | some (.chr _) => (vis, lst ++ [(pc, caps)])
      | some .done => (vis, lst ++ [(pc, caps)])
      | none => (vis, lst)

/-- Word-ness of an optional character (absent counts as non-word). -/
def optW : Option Char → Bool
  | some c => isWordChar c
  | none => false

/-- Build the scan context for a position. -/
def mkCtx (pos : Nat) (prev cur : Option Char) (atEnd : Bool) : VmCtx :=
  ⟨pos, atEnd, optW prev, optW cur⟩

/-- Process the current thread list against the current character,
building the next position's list; an accept records its captures and
drops the remaining (lower-priority) threads. -/
def stepList (prog : List Instr) (ctxNext : VmCtx) (cur : Option Char) :
    List Thread → List Nat × List Thread → Option Caps → (List Nat × List Thread) × Option Caps
  | [], st, m => (st, m)
  | (pc, caps) :: rest, st, m =>
    match prog.get? pc with
    | some (.chr k) =>
      match cur with
      | some c =>
        if clsMatches k c then
          stepList prog ctxNext cur rest (addThread prog ctxNext prog.length (pc + 1) caps st) m
        else stepList prog ctxNext cur rest st m
      | none => stepList prog ctxNext cur rest st m
    | some .done => (st, some caps)
    | _ => stepList prog ctxNext cur rest st m

/-- Main Pike-VM loop over the input; `clist` is the closed thread list
for the current position.  New bottom-priority start threads are seeded at
each subsequent position until a match has been recorded (leftmost
preference). -/
def vmRun (prog : List Instr) : Nat → List Thread → Option Caps → Str → Option Caps
  | pos, clist, matched, [] =>
    (stepList prog (mkCtx (pos + 1) none none true) none clist ([], []) matched).2
  | pos, clist, matched, c :: rest =>
    let ctxNext := mkCtx (pos + 1) (some c) rest.head? (rest = [])
    let (st, m) := stepList prog ctxNext (some c) clist ([], []) matched
    let st := if m.isSome then st
      else addThread prog ctxNext prog.length 0 (List.replicate numSlots none) st
    vmRun prog (pos + 1) st.2 m rest

/-- Leftmost-first match of a compiled program over a string. -/
def reFind (prog : List Instr) (s : Str) : Option Caps :=
  let ctx0 := mkCtx 0 none s.head? (s = [])
  let st := addThread prog ctx0 prog.length 0 (List.replicate numSlots none) ([], [])
  vmRun prog 0 st.2 none s

/-- Replacement template item: literal text or a capture-group reference. -/
inductive TItem where
  | lit (s : Str)
  | grp (n : Nat)

/-- Template expansion against a match (an unset group expands to
nothing, as in the regex crate). -/
def expandTemplate (s : Str) (caps : Caps) : List TItem → Str
  | [] => []
  | .lit t :: rest => t ++ expandTemplate s caps rest
  | .grp n :: rest =>
    (match caps.get? (2 * n), caps.get? (2 * n + 1) with
     | some (some a), some (some b) => (s.take b).drop a
     | _, _ => []) ++ expandTemplate s caps rest

/-- Rust Regex::replace: rewrite the first match with the template, or
return the input unchanged when there is no match. -/
def reReplaceFirst (prog : List Instr) (tmpl : List TItem) (s : Str) : Str :=
  match reFind prog s with
  | none => s
  | some caps =>
    match caps.get? 0, caps.get? 1 with
    | some (some a), some (some b) =>
      s.take a ++ expandTemplate s caps tmpl ++ s.drop b
    | _, _ => s

/-! ## Obfuscate phase (src/minifier/src/obfuscate.rs)

The 21 rules of VarPatterns::compile (obfuscate.rs lines 26-211),
transcribed as regex syntax trees.  `regex::escape(var)` makes the
variable a literal, embedded here as a literal character sequence. -/

/-- Single-quoted span: quote, non-quotes, quote. -/
def sqSpan : Reg := rCat [rLit sqc, rStar (nclsOf [.chr sqc]), rLit sqc]

/-- Double-quoted span. -/
def dqSpan : Reg := rCat [rLit dq, rStar (nclsOf [.chr dq]), rLit dq]

/-- Star over spaces and tabs. -/
def blankStar : Reg := rStar (clsOf [.chr ' ', .chr '\t'])

/-- Star over whitespace. -/
def spStar : Reg := rStar rSpaceC

/-- Plus over whitespace. -/
def spPlus : Reg := rPlus rSpaceC

/-- Sign class: minus or plus. -/
def signC : Reg := clsOf [.chr '-', .chr '+']

/-- Any character except a single quote. -/
def noSq : Reg := nclsOf [.chr sqc]

/-- Any character except a double quote. -/
def noDq : Reg := nclsOf [.chr dq]

/-- Any character except a closing brace. -/
def noRbr : Reg := nclsOf [.chr rbr]

/-- Quote context of rules 15 and 17: star of (non-quotes, quoted spans,
non-quotes). -/
def qctx : Reg := rStar (rCat [rStar noSq, rStar sqSpan, rStar noSq])

/-- Quote context of rules 3, 16 and 18: non-quotes then a star of
single-quoted-span stars and double-quoted-span stars. -/
def qdctx : Reg := rCat [rStar noSq, rStar (rCat [rStar sqSpan, rStar dqSpan])]

/-- One compiled obfuscation rule: program, replacement template, and the
looped flag. -/
structure RRule where
  prog : List Instr
  tmpl : List TItem
  looped : Bool

/-- Build a rule. -/
def mkRule (r : Reg) (tmpl : List TItem) (looped : Bool) : RRule :=
  ⟨regexCompile r, tmpl, looped⟩

/-- Port of VarPatterns::compile (obfuscate.rs lines 26-211): the rules in
source order — assignment, local/declare, non-quote assignment, pipe
assignment, read, printf/mapfile, for, array write, array read, unset,
pre-increment, post-increment, parameter-expansion modifiers, array-index
arithmetic, substring offset (14b) and offset/length (14c), dollar-var
(15) and its nested-quote variants (16), brace-var (17, 18), hash-length
(19), and the arithmetic contexts (20a, 20b). -/
def var_patterns_compile (v rep : Str) : List RRule :=
  let g1 := TItem.grp 1
  let g2 := TItem.grp 2
  let tr := TItem.lit rep
  let dollarR := TItem.lit ('$' :: rep)
  [ mkRule (rCat [Reg.grp 1 blankStar, Reg.wb, rStr v, rLit '='])
      [g1, tr, TItem.lit ['=']] true,
    mkRule (rCat [Reg.grp 1 (rCat [blankStar,
        Reg.alt (rStr (("local").data)) (rStr (("declare").data)),
        rStar (Reg.alt (clsOf [.chr ' ', .chr '\t']) (rCat [rLit '-', rWordC])),
        rStar (nclsOf [.chr ';']), rSpaceC]), rStr v,
        Reg.grp 2 (Reg.alt rSpaceC (Reg.alt (rLit '=') Reg.eos))])
      [g1, tr, g2] true,
    mkRule (rCat [Reg.bos,
        Reg.grp 1 (Reg.alt (rCat [qdctx, rLit dq, rStar noDq])
                           (rStar (nclsOf [.chr sqc, .chr dq]))),
        Reg.wb, rStr v, Reg.grp 2 (rCat [rOpt signC, rLit '='])])
      [g1, tr, g2] true,
    mkRule (rCat [Reg.grp 1 (rCat [rLit '|', spPlus]), rStr v,
        Reg.grp 2 (rCat [rOpt signC, rLit '='])])
      [g1, tr, g2] false,
    mkRule (rCat [Reg.bos,
        Reg.grp 1 (rCat [rStar rDot, rStr (("read").data), rSpaceC, rStar rDot]),
        Reg.wb, rStr v,
        Reg.grp 2 (clsOf [.chr ' ', .chr ';', .chr rbr, .chr sqc, .chr dq, .chr '\n'])])
      [g1, tr, g2] true,
    mkRule (rCat [Reg.bos,
        Reg.grp 1 (Reg.alt (rCat [rStr (("printf").data), spPlus, rStr (("-v").data), spPlus])
                           (rCat [rStr (("mapfile").data), spPlus, rStr (("-t").data), spPlus])),
        rStr v, Reg.grp 2 rNWordC])
      [g1, tr, g2] false,
    mkRule (rCat [Reg.bos, Reg.grp 1 (rCat [blankStar, rStr (("for").data), spPlus]),
        rStr v, Reg.wb])
      [g1, tr] false,
    mkRule (rCat [Reg.grp 1 blankStar, Reg.wb, rStr v,
        Reg.grp 2 (rCat [rLit '[', rDot, Reg.star false rDot, rLit ']', rLit '='])])
      [g1, tr, g2] true,
    mkRule (rCat [Reg.bos, Reg.grp 1 (rCat [rStar rDot, rLit '$', rLit lbr]),
        rStr v, Reg.grp 2 (rLit '[')])
      [g1, tr, g2] true,
    mkRule (rCat [Reg.bos,
        Reg.grp 1 (rCat [rStar rDot, rStr (("unset").data), spPlus, clsOf [.chr sqc, .chr dq]]),
        rStr v, Reg.grp 2 (rLit '[')])
      [g1, tr, g2] false,
    mkRule (rCat [Reg.bos,
        Reg.grp 1 (rCat [blankStar, rLit '(', rLit '(', spStar, signC, signC]),
        rStr v, Reg.wb])
      [g1, tr] false,
    mkRule (rCat [Reg.bos, Reg.grp 1 (rCat [blankStar, rLit '(', rLit '(', spStar]),
        rStr v, Reg.grp 2 (rCat [signC, signC])])
      [g1, tr, g2] false,
    mkRule (rCat [Reg.grp 1 (rPlus (clsOf [.chr ':', .chr '+', .chr '-', .chr ' '])),
        rStr v, Reg.grp 2 (clsOf [.chr ':', .chr rbr, .chr '+'])])
      [g1, tr, g2] true,
    mkRule (rCat [Reg.grp 1 (rCat [rLit '$', rLit lbr, rPlus noRbr,
        clsOf [.chr '[', .chr '+', .chr '-']]), rStr v,
        Reg.grp 2 (rCat [clsOf [.chr ']', .chr '+', .chr '-'], rStar noRbr, rLit rbr])])
      [g1, tr, g2] true,
    mkRule (rCat [Reg.grp 1 (rCat [rLit '$', rLit lbr,
        rPlus (nclsOf [.chr rbr, .chr ':']), rLit ':']), rStr v, Reg.wb,
        Reg.grp 2 (rCat [rStar noRbr, rLit rbr])])
      [g1, tr, g2] true,
    mkRule (rCat [Reg.grp 1 (rCat [rLit '$', rLit lbr,
        rPlus (nclsOf [.chr rbr, .chr ':']), rLit ':', rWordC, Reg.star false noRbr]),
        Reg.wb, rStr v, Reg.wb, Reg.grp 2 (rCat [rStar noRbr, rLit rbr])])
      [g1, tr, g2] true,
    mkRule (rCat [Reg.bos, Reg.grp 1 qctx, rLit '$', rStr v, Reg.grp 2 rNWordC])
      [g1, dollarR, g2] true,
    mkRule (rCat [Reg.bos, Reg.grp 1 (rCat [qdctx, rLit dq, rStar noDq]),
        rLit '$', rStr v, Reg.grp 2 rNWordC])
      [g1, dollarR, g2] true,
    mkRule (rCat [Reg.bos,
        Reg.grp 1 (rCat [qctx, rLit '$', rLit lbr, rOpt (clsOf [.chr '!', .chr '#'])]),
        rStr v, Reg.grp 2 rNWordC])
      [g1, tr, g2] true,
    mkRule (rCat [Reg.bos,
        Reg.grp 1 (rCat [qdctx, rLit dq, rStar noDq, rLit '$', rLit lbr, rOpt (rLit '#')]),
        rStr v, Reg.grp 2 rNWordC])
      [g1, tr, g2] true,
    mkRule (rCat [Reg.grp 1 (rCat [clsOf [.chr '(', .chr '['], clsOf [.chr '(', .chr '['],
        rStar (nclsOf [.chr ')']), rLit '$', rLit lbr, rOpt (rLit '#')]),
        rStr v, Reg.grp 2 (clsOf [.chr '[', .chr ':', .chr rbr])])
      [g1, tr, g2] true,
    mkRule (rCat [Reg.grp 1 (rCat [rLit '(', rLit '(', rStar (nclsOf [.chr ')']),
        clsOf [.spaceCls, .chr ';', .chr '<', .chr '>']]), rStr v,
        Reg.grp 2 (clsOf [.chr ';', .spaceCls, .chr '<', .chr '>'])])
      [g1, tr, g2] true,
    mkRule (rCat [Reg.grp 1 (rCat [rLit '(', rLit '(', rStar (nclsOf [.chr ')']),
        clsOf [.chr '=', .chr '+', .chr '-', .spaceCls]]), rStr v,
        Reg.grp 2 (clsOf [.chr '=', .chr '+', .chr '-', .spaceCls, .chr ')', .chr ';', .chr '['])])
      [g1, tr, g2] true ]

/-- Bounded fixed-point loop of VarPatterns::apply (obfuscate.rs lines
215-223): up to one hundred replacements. -/
def applyRuleLoop : Nat → RRule → Str → Str
  | 0, _, s => s
  | f + 1, rule, s =>
    let next := reReplaceFirst rule.prog rule.tmpl s
    if next = s then s else applyRuleLoop f rule next

/-- Port of VarPatterns::apply (obfuscate.rs lines 213-229). -/
def var_patterns_apply (rules : List RRule) (line : Str) : Str :=
  rules.foldl (fun s rule =>
    if rule.looped then applyRuleLoop 100 rule s
    else reReplaceFirst rule.prog rule.tmpl s) line

/-- Port of Obfuscator::new (obfuscate.rs lines 239-244). -/
def obfuscator_new (sortedVars : List Str) (rename : List (Str × Str)) :
    List (List RRule) :=
  sortedVars.map fun v => var_patterns_compile v (mapLookup rename v)

/-- Port of Obfuscator::obfuscate_line (obfuscate.rs lines 250-260): a
newline sentinel is appended, every variable's rule set is applied in
order, and a trailing newline is removed. -/
def obfuscate_line (patterns : List (List RRule)) (line : Str) : Str :=
  let s := patterns.foldl (fun s rules => var_patterns_apply rules s) (line ++ ['\n'])
  if s.getLast? = some '\n' then s.dropLast else s

/-- Port of Obfuscator::obfuscate_lines (obfuscate.rs lines 263-265). -/
def obfuscate_lines (patterns : List (List RRule)) (lines : List Str) : List Str :=
  lines.map (obfuscate_line patterns)

/-- Convenience: the obfuscator built from a variable list and prefix, as
in the pipeline (discover, build_rename_map, Obfuscator::new). -/
def mkObfuscator (vars : List Str) (pre : Str) : List (List RRule) :=
  obfuscator_new vars (build_rename_map vars pre)

/-! ## Bundle phase (src/minifier/src/bundle.rs)

The filesystem is modelled as a finite association list from paths to
contents; `Path::canonicalize` is modelled as the identity (the model has
no symlinks or dot-segments in resolved paths). -/

/-- Filesystem model: path to content. -/
abbrev FsModel := List (Str × Str)

/-- Read a file. -/
def fsRead (fs : FsModel) (p : Str) : Option Str :=
  (fs.find? (fun e => e.1 == p)).map (·.2)

/-- Rust Path::is_file. -/
def fsIsFile (fs : FsModel) (p : Str) : Bool := (fsRead fs p).isSome

/-- Rust Path::parent (empty when the path has no separator). -/
def parentDir (p : Str) : Str :=
  match p.reverse.findIdx? (· = '/') with
  | some i => p.take (p.length - i - 1)
  | none => []

/-- Rust Path::join for the relative names used by the bundler. -/
def pathJoin (dir name : Str) : Str :=
  if dir = [] then name else dir ++ '/' :: name

/-- Bundle configuration: ordered import search directories. -/
structure BundleConfig where
  search_paths : List Str

/-- Port of strip_import_prefix (bundle.rs lines 59-64): drop a leading
at-sign or tilde. -/
def strip_import_sigil (target : Str) : Str :=
  match target with
  | '@' :: r => r
  | '~' :: r => r
  | _ => target

/-- Target character class of the bundle regexes: no whitespace,
semicolon or hash (the source/dot variants also exclude quotes). -/
def isTargetChar (quoted : Bool) (c : Char) : Bool :=
  !isSpaceChar c && c ≠ ';' && c ≠ '#' && (!quoted || (c ≠ sqc && c ≠ dq))

/-- Regex RE_IMPORT with capture: blanks, `import`, whitespace, the
target run, trailing whitespace to the end. -/
def reImportTarget (l : Str) : Option Str :=
  let r := l.dropWhile isBlankChar
  if startsWith r (("import").data) then
    let r2 := r.drop 6
    if (match r2 with | c :: _ => isSpaceChar c | [] => false) then
      let r3 := r2.dropWhile isSpaceChar
      let run := r3.takeWhile (isTargetChar false)
      if run ≠ [] && (r3.drop run.length).all isSpaceChar then some run else none
    else none
  else none

/-- Shared tail of regexes RE_SOURCE and RE_DOT: whitespace, an optional
quote, then the quoted-target run. -/
def sourceTail (r2 : Str) : Option Str :=
  if (match r2 with | c :: _ => isSpaceChar c | [] => false) then
    let r3 := r2.dropWhile isSpaceChar
    let r4 := match r3 with
      | c :: rest => if c = sqc || c = dq then rest else r3
      | [] => r3
    let run := r4.takeWhile (isTargetChar true)
    if run ≠ [] then some run else none
  else none

/-- Regex RE_SOURCE with capture. -/
def reSourceTarget (l : Str) : Option Str :=
  let r := l.dropWhile isBlankChar
  if startsWith r (("source").data) then sourceTail (r.drop 6) else none

/-- Regex RE_DOT with capture. -/
def reDotTarget (l : Str) : Option Str :=
  match l.dropWhile isBlankChar with
  | '.' :: r2 => sourceTail r2
  | _ => none

/-- Port of extract_target (bundle.rs lines 163-175): the three regexes
are tried in order; a captured target containing a dollar sign aborts
immediately (dynamic paths are not resolved). -/
def extract_target (l : Str) : Option Str :=
  match reImportTarget l with
  | some t => if t.contains '$' then none else some t
  | none =>
    match reSourceTarget l with
    | some t => if t.contains '$' then none else some t
    | none =>
      match reDotTarget l with
      | some t => if t.contains '$' then none else some t
      | none => none

/-- Port of resolve_path (bundle.rs lines 73-94): strip the sigil, reject
traversal and absolute paths, then probe the current directory and each
search path with the bare name and the `.sh`/`.bash` extensions. -/
def resolve_path (fs : FsModel) (target dir : Str) (cfg : BundleConfig) : Option Str :=
  let stripped := strip_import_sigil target
  if containsSub stripped (("..").data) ||
      (match stripped with | '/' :: _ => true | _ => false) then none
  else
    (dir :: cfg.search_paths).findSome? fun d =>
      ([[], (".sh").data, (".bash").data] : List Str).findSome? fun ext =>
        let cand := pathJoin d (stripped ++ ext)
        if fsIsFile fs cand then some cand else none

/-- Scan loop of brace_depth_delta (bundle.rs lines 102-157): `bs` counts
the consecutive backslashes before the current character, `prev` is the
previous character. -/
def brace_depth_delta_go (delta paramDepth : Int) (inS inD : Bool) (bs : Nat)
    (prev : Option Char) : Str → Int
  | [] => delta
  | c :: cs =>
    let isEsc := if inS then false else bs % 2 = 1
    let bs' := if c = bsl then bs + 1 else 0
    if c = sqc && !inD && (inS || !isEsc) then
      brace_depth_delta_go delta paramDepth (!inS) inD bs' (some c) cs
    else if c = dq && !inS && !isEsc then
      brace_depth_delta_go delta paramDepth inS (!inD) bs' (some c) cs
    else if c = lbr && !inS then
      if prev = some '$' then
        brace_depth_delta_go delta (paramDepth + 1) inS inD bs' (some c) cs
      else if paramDepth = 0 && !inD then
        brace_depth_delta_go (delta + 1) paramDepth inS inD bs' (some c) cs
      else brace_depth_delta_go delta paramDepth inS inD bs' (some c) cs
    else if c = rbr && !inS then
      if paramDepth > 0 then
        brace_depth_delta_go delta (paramDepth - 1) inS inD bs' (some c) cs
      else if !inD then
        brace_depth_delta_go (delta - 1) paramDepth inS inD bs' (some c) cs
      else brace_depth_delta_go delta paramDepth inS inD bs' (some c) cs
    else brace_depth_delta_go delta paramDepth inS inD bs' (some c) cs

/-- Port of brace_depth_delta (bundle.rs lines 102-157). -/
def brace_depth_delta (l : Str) : Int :=
  brace_depth_delta_go 0 0 false false 0 none l

example : brace_depth_delta (("foo() ").data ++ [lbr]) = 1 := by decide
example : brace_depth_delta [rbr] = -1 := by decide
example : brace_depth_delta (("echo $").data ++ [lbr] ++ ("var").data ++ [rbr]) = 0 := by decide

/-- Loop state of bundle_recursive (bundle.rs lines 189-192). -/
structure BundleSt where
  output : List Str
  braceDepth : Int
  forceNext : Bool
  openQuote : Option Char
  seen : List Str

/-- Maximum recursion depth (bundle.rs line 25). -/
def MAX_DEPTH : Nat := 64

/-- The depth-limit error message of bundle_recursive (bundle.rs line 186). -/
def depthErrMsg : Str := ("bundle: maximum recursion depth (64) exceeded").data

/-- Emit a plain line and update brace depth (clamped at zero) and the
multi-line-quote state (bundle.rs lines 244-259). -/
def bundleEmit (line : Str) (st : BundleSt) : BundleSt :=
  let bd := st.braceDepth + brace_depth_delta line
  let bd := if bd < 0 then 0 else bd
  let q := line_has_open_quote line
  { st with
    output := st.output ++ [line]
    braceDepth := bd
    forceNext := false
    openQuote := if q.1 then some sqc else if q.2 then some dq else none }

/-- One line of the bundle_recursive loop (bundle.rs lines 194-259);
`recurse` is the recursive bundling call at the next depth, returning the
inlined lines and the updated visited set. -/
def bundle_step (fs : FsModel) (cfg : BundleConfig)
    (recurse : Str → Str → List Str → Except Str (List Str × List Str))
    (dir : Str) (line : Str) (st : BundleSt) : Except Str BundleSt :=
  match st.openQuote with
  | some qc =>
    .ok { st with
      output := st.output ++ [line]
      openQuote := if line.contains qc then none else some qc }
  | none =>
    if rustTrim line = ("# minifier force source").data then
      .ok { st with forceNext := true }
    else
      match extract_target line with
      | some target =>
        match resolve_path fs target dir cfg with
        | some resolved =>
          let canonical := resolved
          let should_dedup := st.braceDepth = 0 && !st.forceNext && st.seen.contains canonical
          if should_dedup then .ok { st with forceNext := false }
          else
            let seen1 := if st.seen.contains canonical then st.seen else st.seen ++ [canonical]
            match fsRead fs resolved with
            | some content =>
              match recurse content (parentDir resolved) seen1 with
              | .ok (inlined, seen2) =>
                .ok { st with
                  output := st.output ++ inlined
                  forceNext := false
                  seen := seen2 }
              | .error e => .error e
            | none => .error (("bundle: read failure").data)
        | none => .ok (bundleEmit line st)
      | none => .ok (bundleEmit line st)

/-- Line loop of bundle_recursive. -/
def bundle_lines (fs : FsModel) (cfg : BundleConfig)
    (recurse : Str → Str → List Str → Except Str (List Str × List Str))
    (dir : Str) : List Str → BundleSt → Except Str BundleSt
  | [], st => .ok st
  | l :: ls, st =>
    match bundle_step fs cfg recurse dir l st with
    | .ok st1 => bundle_lines fs cfg recurse dir ls st1
    | .error e => .error e

/-- Port of bundle_recursive (bundle.rs lines 178-263); the explicit fuel
makes the recursion structural and is unreachable when the function is
entered with fuel equal to MAX_DEPTH + 2 minus the depth, because the
depth guard fires first. -/
def bundle_recursive (fs : FsModel) (cfg : BundleConfig) :
    Nat → Nat → Str → Str → List Str → Except Str (List Str × List Str)
  | fuel, depth, source, dir, seen =>
    if depth > MAX_DEPTH then .error depthErrMsg
    else
      match fuel with
      | 0 => .error depthErrMsg
      | f + 1 =>
        match bundle_lines fs cfg (fun src d sn => bundle_recursive fs cfg f (depth + 1) src d sn)
            dir (strLines source) ⟨[], 0, false, none, seen⟩ with
        | .ok st => .ok (st.output, st.seen)
        | .error e => .error e

/-- Port of bundle (bundle.rs lines 48-56). -/
def bundle (fs : FsModel) (cfg : BundleConfig) (source : Str) (inputPath : Str) :
    Except Str Str :=
  match bundle_recursive fs cfg (MAX_DEPTH + 2) 0 source (parentDir inputPath) [] with
  | .ok (lines, _) => .ok (joinNl lines)
  | .error e => .error e

/-! ## Keyword-semicolon occurrence checker (for the Join claims) -/

/-- Whether the string starts with a keyword-semicolon sequence. -/
def startsKwSemi (l : Str) : Bool :=
  startsWith l (("then;").data) || startsWith l (("do;").data) || startsWith l (("else;").data)

/-- Whether a word-boundary-preceded `then;`, `do;` or `else;` occurs
anywhere; `prev` is the character before the first position. -/
def containsKwSemi : Option Char → Str → Bool
  | _, [] => false
  | prev, c :: cs => (bdryOk prev && startsKwSemi (c :: cs)) || containsKwSemi (some c) cs

/-! ## Claim theorems -/

/-- C1 counterexample: the claim says every phase (including Obfuscate and
Join) emits heredoc body lines byte-for-byte until the delimiter.  At the
concrete heredoc `cat <<EOF` with body line `then;`, Join's final
keyword-semicolon pass rewrites the body to `then `, so the output is not
the verbatim text; and the Obfuscate phase, which has no heredoc state,
rewrites the body line `$foo ` to `$a0 `. -/
theorem C1_counterexample :
    join_newlines 5 (("cat <<EOF\nthen;\nEOF\n").data)
      = ("cat <<EOF\nthen \nEOF\n").data ∧
    join_newlines 5 (("cat <<EOF\nthen;\nEOF\n").data)
      ≠ ("cat <<EOF\nthen;\nEOF\n").data ∧
    obfuscate_lines (mkObfuscator [("foo").data] (("a").data))
        [("cat <<EOF").data, ("$foo ").data, ("EOF").data]
      = [("cat <<EOF").data, ("$a0 ").data, ("EOF").data] := by
  refine ⟨by decide, by decide, by decide⟩

/-- C2 failing input: on the line consisting of the fully single-quoted
span quote, space, dash, foo, colon, quote, with discovered variable
`foo`, the obfuscator's rule 13 (parameter-expansion modifiers, which has
no quote guard) rewrites bytes inside the single-quoted span, contradicting
the quote-literal invariant. -/
theorem C2_single_quote_span_altered :
    obfuscate_line (mkObfuscator [("foo").data] (("a").data))
        ([sqc] ++ (" -foo:").data ++ [sqc])
      = [sqc] ++ (" -a0:").data ++ [sqc] ∧
    ([sqc] ++ (" -a0:").data ++ [sqc]) ≠ ([sqc] ++ (" -foo:").data ++ [sqc]) := by
  refine ⟨by decide, by decide⟩

/-- C3 failing input: a source declaring both `alias` and a variable
literally named `a0`.  Discovery sorts them as alias then a0; the rename
map sends alias to a0 and a0 to a1.  Obfuscating `alias=1` first renames
it to `a0=1`, and then the later, shorter variable a0's rules re-match the
renamed output and rewrite it to `a1=1` — the same name the real a0
receives — so renamed output is re-matched, contradicting the claim. -/
theorem C3_renamed_output_rematched :
    discover_variables (("alias=1\na0=2\n").data) []
      = [("alias").data, ("a0").data] ∧
    build_rename_map [("alias").data, ("a0").data] (("a").data)
      = [(("alias").data, ("a0").data), (("a0").data, ("a1").data)] ∧
    obfuscate_line (mkObfuscator [("alias").data, ("a0").data] (("a").data))
        (("alias=1").data)
      = ("a1=1").data ∧
    obfuscate_line (mkObfuscator [("alias").data, ("a0").data] (("a").data))
        (("a0=2").data)
      = ("a1=2").data := by
  refine ⟨by decide, by decide, by decide, by decide⟩

/-- C6 counterexample: the line `echo ado; echo b` is a fixed point of
Flatten (so it is an input accepted by Flatten), and Join's output on it
contains the substring `do;` (inside `ado;`), because the final pass only
rewrites keyword-boundary occurrences. -/
theorem C6_counterexample :
    flatten_lines [("echo ado; echo b").data] = [("echo ado; echo b").data] ∧
    join_newlines 5 (("echo ado; echo b").data) = ("echo ado; echo b;").data ∧
    containsSub (join_newlines 5 (("echo ado; echo b").data)) (("do;").data) = true := by
  refine ⟨by decide, by decide, by decide⟩

/-- C7 counterexample: Strip is not idempotent.  The line `# x <<EOF` is a
comment, so it is stripped, but its heredoc delimiter is still detected,
so the following comment is passed through verbatim.  On the second pass
the opener is gone and the body comment is stripped. -/
theorem C7_counterexample :
    strip_lines (("# x <<EOF\n# body\nEOF").data)
      = [("# body").data, ("EOF").data] ∧
    strip_lines (joinNl (strip_lines (("# x <<EOF\n# body\nEOF").data)))
      = [("EOF").data] ∧
    strip_lines (joinNl (strip_lines (("# x <<EOF\n# body\nEOF").data)))
      ≠ strip_lines (("# x <<EOF\n# body\nEOF").data) := by
  refine ⟨by decide, by decide, by decide⟩

/-- Cyclic two-file filesystem for the bundle claims. -/
def fsCyclic : FsModel :=
  [((("d/a.sh").data), (("import b\necho a\n").data)),
   ((("d/b.sh").data), (("import a\necho b\n").data))]

/-- A 67-file import chain exceeding the depth limit. -/
def fsDeepChain : FsModel :=
  (List.range 67).map fun i =>
    ((("d/c").data ++ natDigits i ++ ((".sh").data)),
     ((("import c").data ++ natDigits (i + 1) ++ ['\n'])))

/-- Single-library filesystem of spec Example 3. -/
def fsLib : FsModel := [((("d/lib.sh").data), (("echo lib\n").data))]

/-- Source of spec Example 3 (a top-level import, the same import inside a
function body, then a main line). -/
def example3src : Str :=
  ("import lib\nfoo() ").data ++ [lbr] ++ ("\nimport lib\n").data ++ [rbr]
    ++ ("\necho main\n").data

/-- Expected Example 3 output: the library inlined twice, once at top
level and once inside the function. -/
def example3out : Str :=
  ("echo lib\nfoo() ").data ++ [lbr] ++ ("\necho lib\n").data ++ [rbr]
    ++ ("\necho main").data

/-- C4: an import whose resolved (canonical) target was already inlined is
skipped exactly when it sits at brace depth zero with no force annotation
pending; at positive depth or with the force flag, it is inlined again
regardless of the visited set.  Stated on the loop step of the bundler,
plus spec Example 3 end to end. -/
theorem C4_dedup_policy :
    (∀ (fs : FsModel) (cfg : BundleConfig)
        (recurse : Str → Str → List Str → Except Str (List Str × List Str))
        (dir line : Str) (st : BundleSt) (target resolved : Str),
      st.openQuote = none →
      rustTrim line ≠ ("# minifier force source").data →
      extract_target line = some target →
      resolve_path fs target dir cfg = some resolved →
      ((st.braceDepth = 0 ∧ st.forceNext = false ∧ st.seen.contains resolved = true →
          bundle_step fs cfg recurse dir line st = .ok { st with forceNext := false }) ∧
       ((st.braceDepth ≠ 0 ∨ st.forceNext = true) →
          bundle_step fs cfg recurse dir line st =
            match fsRead fs resolved with
            | some content =>
              (match recurse content (parentDir resolved)
                  (if st.seen.contains resolved then st.seen else st.seen ++ [resolved]) with
               | .ok (inlined, seen2) =>
                 .ok { st with output := st.output ++ inlined, forceNext := false,
                               seen := seen2 }
               | .error e => .error e)
            | none => .error (("bundle: read failure").data)))) ∧
    bundle fsLib ⟨[]⟩ example3src (("d/main.sh").data) = .ok example3out := by
  constructor
  · intro fs cfg recurse dir line st target resolved hq hf ht hr
    constructor
    · rintro ⟨hb, hforce, hseen⟩
      simp only [bundle_step, hq, ht, hr, hb, hforce, hseen]
      simp [hf]
    · intro hcase
      have hdedup : (decide (st.braceDepth = 0) && !st.forceNext
          && st.seen.contains resolved) = false := by
        rcases hcase with h | h
        · simp [h]
        · simp [h]
      simp only [bundle_step, hq, ht, hr]
      simp [hf, hdedup]
      intro hb hfo hs
      rcases hcase with h | h
      · exact absurd hb h
      · simp [h] at hfo
  · rfl

/-- C5: the bundler terminates on every import graph (the embedding is a
total function); any call past the depth limit of 64 fails with the
distinct maximum-recursion-depth message, and on a cyclic two-file graph
the bundler succeeds, resolving each file once via the visited set (the
root's own lines appear once more on top).  A 67-deep chain fails with the
depth message. -/
theorem C5_termination_and_depth_error :
    (∀ (fs : FsModel) (cfg : BundleConfig) (fuel depth : Nat) (src dir : Str)
        (seen : List Str), depth > MAX_DEPTH →
        bundle_recursive fs cfg fuel depth src dir seen = .error depthErrMsg) ∧
    containsSub depthErrMsg (("maximum recursion depth").data) = true ∧
    bundle fsCyclic ⟨[]⟩ (("import b\necho a\n").data) (("d/a.sh").data)
      = .ok (("echo a\necho b\necho a").data) ∧
    bundle fsDeepChain ⟨[]⟩ (("import c0\n").data) (("d/main.sh").data)
      = .error depthErrMsg := by
  refine ⟨?_, by decide, by rfl, by rfl⟩
  intro fs cfg fuel depth src dir seen h
  rw [bundle_recursive.eq_def]
  split
  rw [if_pos h]

/-- Witness for C4: a concrete already-seen top-level import is skipped. -/
theorem C4_dedup_policy_witness :
    bundle_step fsLib ⟨[]⟩ (fun _ _ sn => Except.ok ([], sn)) (("d").data)
        (("import lib").data)
        ⟨[], 0, false, none, [("d/lib.sh").data]⟩
      = .ok ⟨[], 0, false, none, [("d/lib.sh").data]⟩ :=
  ((C4_dedup_policy.1 fsLib ⟨[]⟩ (fun _ _ sn => Except.ok ([], sn)) (("d").data)
      (("import lib").data) ⟨[], 0, false, none, [("d/lib.sh").data]⟩
      (("lib").data) (("d/lib.sh").data)
      rfl (by decide) (by decide) (by decide)).1) ⟨rfl, rfl, by decide⟩

/-- Witness for C5: a concrete call past the depth limit errors. -/
theorem C5_termination_witness :
    bundle_recursive [] ⟨[]⟩ 0 65 [] [] [] = .error depthErrMsg :=
  C5_termination_and_depth_error.1 [] ⟨[]⟩ 0 65 [] [] [] (by decide)

/-- Strip passes heredoc body lines through verbatim up to and including
the delimiter line. -/
theorem strip_go_passthrough (d : Str) (L1 : List Str) (ld : Str) (L2 : List Str)
    (h1 : ∀ b ∈ L1, rustTrim b ≠ d) (h2 : rustTrim ld = d) :
    strip_lines_go (some d) (L1 ++ ld :: L2) = L1 ++ ld :: strip_lines_go none L2 := by
  induction L1 with
  | nil => simp [strip_lines_go, h2]
  | cons b L1 ih =>
    have hb : rustTrim b ≠ d := h1 b (List.mem_cons_self b L1)
    simp only [List.cons_append, strip_lines_go, if_neg hb, List.append_eq]
    rw [ih (fun x hx => h1 x (List.mem_cons_of_mem b hx))]

/-- Flatten passes heredoc body lines through verbatim up to and including
the delimiter line. -/
theorem flatten_go_passthrough (d : Str) (L1 : List Str) (ld : Str) (L2 : List Str)
    (h1 : ∀ b ∈ L1, rustTrim b ≠ d) (h2 : rustTrim ld = d) :
    flatten_lines_go (some d) (L1 ++ ld :: L2) = L1 ++ ld :: flatten_lines_go none L2 := by
  induction L1 with
  | nil => simp [flatten_lines_go, h2]
  | cons b L1 ih =>
    have hb : rustTrim b ≠ d := h1 b (List.mem_cons_self b L1)
    simp only [List.cons_append, flatten_lines_go, if_neg hb, List.append_eq]
    rw [ih (fun x hx => h1 x (List.mem_cons_of_mem b hx))]

/-- Join's heredoc loop copies body lines verbatim (each with its
newline) up to and including the delimiter line, and hands back the
remaining lines. -/
theorem join_heredoc_passthrough (d : Str) (L1 : List Str) (ld : Str) (L2 : List Str)
    (h1 : ∀ b ∈ L1, rustTrim b ≠ d) (h2 : rustTrim ld = d) :
    join_heredoc d (L1 ++ ld :: L2)
      = ((L1.map (· ++ ['\n'])).flatten ++ ld ++ ['\n'], L2) := by
  induction L1 with
  | nil => simp [join_heredoc, h2]
  | cons b L1 ih =>
    have hb : rustTrim b ≠ d := h1 b (List.mem_cons_self b L1)
    simp only [List.cons_append, join_heredoc, if_neg hb, List.append_eq]
    rw [ih (fun x hx => h1 x (List.mem_cons_of_mem b hx))]
    simp

/-- C1 amended: with a heredoc delimiter active, the Strip and Flatten
line loops emit every line byte-for-byte until the first line whose
trimmed content equals the delimiter, and Join's heredoc loop copies each
body line verbatim into the pre-fix output — while Obfuscate (which has no
heredoc state) and Join's final keyword-semicolon pass may still rewrite
body text, as the counterexample shows. -/
theorem C1_heredoc_passthrough (d : Str) (L1 : List Str) (ld : Str) (L2 : List Str)
    (h1 : ∀ b ∈ L1, rustTrim b ≠ d) (h2 : rustTrim ld = d) :
    strip_lines_go (some d) (L1 ++ ld :: L2) = L1 ++ ld :: strip_lines_go none L2 ∧
    flatten_lines_go (some d) (L1 ++ ld :: L2) = L1 ++ ld :: flatten_lines_go none L2 ∧
    join_heredoc d (L1 ++ ld :: L2)
      = ((L1.map (· ++ ['\n'])).flatten ++ ld ++ ['\n'], L2) :=
  ⟨strip_go_passthrough d L1 ld L2 h1 h2,
   flatten_go_passthrough d L1 ld L2 h1 h2,
   join_heredoc_passthrough d L1 ld L2 h1 h2⟩

/-- Witness for C1: the passthrough equalities at a concrete heredoc. -/
theorem C1_heredoc_passthrough_witness :
    strip_lines_go (some (("EOF").data))
        ([("# b").data] ++ ("EOF").data :: [("echo x").data])
      = [("# b").data] ++ ("EOF").data :: strip_lines_go none [("echo x").data] ∧
    flatten_lines_go (some (("EOF").data))
        ([("# b").data] ++ ("EOF").data :: [("echo x").data])
      = [("# b").data] ++ ("EOF").data :: flatten_lines_go none [("echo x").data] ∧
    join_heredoc (("EOF").data) ([("# b").data] ++ ("EOF").data :: [("echo x").data])
      = (([("# b").data].map (· ++ ['\n'])).flatten ++ ("EOF").data ++ ['\n'],
         [("echo x").data]) :=
  C1_heredoc_passthrough (("EOF").data) [("# b").data] (("EOF").data) [("echo x").data]
    (by decide) (by decide)

/-- A replace with no match is the identity. -/
theorem reReplaceFirst_of_find_none {prog : List Instr} {tmpl : List TItem} {s : Str}
    (h : reFind prog s = none) : reReplaceFirst prog tmpl s = s := by
  simp [reReplaceFirst, h]

/-- The bounded fixed-point loop is the identity when the rule has no
match. -/
theorem applyRuleLoop_of_find_none {rule : RRule} {s : Str} (f : Nat)
    (h : reFind rule.prog s = none) : applyRuleLoop f rule s = s := by
  cases f with
  | zero => rfl
  | succ f => simp [applyRuleLoop, reReplaceFirst_of_find_none h]

/-- A rule set none of whose rules match leaves the line unchanged. -/
theorem var_patterns_apply_of_no_match {rules : List RRule} {s : Str}
    (h : (rules.all fun rule => (reFind rule.prog s).isNone) = true) :
    var_patterns_apply rules s = s := by
  induction rules with
  | nil => rfl
  | cons r rest ih =>
    simp only [List.all_cons, Bool.and_eq_true, Option.isNone_iff_eq_none] at h
    have hr : reFind r.prog s = none := h.1
    have step : (if r.looped then applyRuleLoop 100 r s
        else reReplaceFirst r.prog r.tmpl s) = s := by
      by_cases hl : r.looped
      · simp [hl, applyRuleLoop_of_find_none 100 hr]
      · simp [hl, reReplaceFirst_of_find_none hr]
    have ih' := ih h.2
    have unfoldStep : var_patterns_apply (r :: rest) s = var_patterns_apply rest s := by
      simp only [var_patterns_apply, List.foldl_cons, step]
    rw [unfoldStep, ih']

/-- C10: the obfuscator built from an empty variable list is the identity
on every line (for any prefix), and for any obfuscator, a line on which
no rule matches comes back unchanged — the appended newline sentinel is
always removed. -/
theorem C10_identity_and_sentinel :
    (∀ (pre line : Str), obfuscate_line (mkObfuscator [] pre) line = line) ∧
    (∀ (patterns : List (List RRule)) (line : Str),
      (patterns.all fun rules => rules.all fun rule =>
        (reFind rule.prog (line ++ ['\n'])).isNone) = true →
      obfuscate_line patterns line = line) := by
  constructor
  · intro pre line
    show obfuscate_line [] line = line
    simp [obfuscate_line]
  · intro patterns line h
    have fold : patterns.foldl (fun s rules => var_patterns_apply rules s)
        (line ++ ['\n']) = line ++ ['\n'] := by
      induction patterns with
      | nil => rfl
      | cons rules rest ih =>
        simp only [List.all_cons, Bool.and_eq_true] at h
        simp only [List.foldl_cons, var_patterns_apply_of_no_match h.1]
        exact ih h.2
    simp [obfuscate_line, fold]

/-- Witness for C10: a concrete obfuscator and a line with no rule match. -/
theorem C10_identity_witness :
    obfuscate_line (mkObfuscator [("foo").data] (("a").data)) (("echo hi").data)
      = ("echo hi").data :=
  C10_identity_and_sentinel.2 (mkObfuscator [("foo").data] (("a").data))
    (("echo hi").data) (by decide)

/-- Whether the scan of heredoc_outside_quotes ever reaches a double
less-than outside quotes (the same toggling, without the regex part). -/
def hasUnquotedLtLt (inS inD : Bool) : Str → Bool
  | [] => false
  | [_] => false
  | c :: d :: cs =>
    if c = sqc && !inD then hasUnquotedLtLt (!inS) inD (d :: cs)
    else if c = dq && !inS then hasUnquotedLtLt inS (!inD) (d :: cs)
    else if c = '<' && !inS && !inD && d = '<' then true
    else hasUnquotedLtLt inS inD (d :: cs)

/-- The naive quote state after consuming a prefix (the same toggling the
heredoc scan performs). -/
def qstate (inS inD : Bool) : Str → Bool × Bool
  | [] => (inS, inD)
  | c :: cs =>
    if c = sqc && !inD then qstate (!inS) inD cs
    else if c = dq && !inS then qstate inS (!inD) cs
    else qstate inS inD cs

/-- With no unquoted double less-than, the heredoc scan finds nothing. -/
theorem hoq_go_none : ∀ (l : Str) (inS inD : Bool),
    hasUnquotedLtLt inS inD l = false → heredoc_outside_quotes_go inS inD l = none := by
  intro l
  induction l with
  | nil => intro inS inD _; rfl
  | cons c cs ih =>
    intro inS inD h
    cases cs with
    | nil => rfl
    | cons d cs2 =>
      simp only [hasUnquotedLtLt] at h
      simp only [heredoc_outside_quotes_go]
      split_ifs at h ⊢ <;> first | exact ih _ _ h | simp_all

/-- A double less-than reached with both quotes closed, followed by a
delimiter shape, is detected. -/
theorem hoq_go_detects : ∀ (u : Str) (inS inD : Bool) (w : Str),
    qstate inS inD u = (false, false) →
    (heredocTryAt ('<' :: '<' :: w)).isSome →
    (heredoc_outside_quotes_go inS inD (u ++ '<' :: '<' :: w)).isSome := by
  intro u
  induction u with
  | nil =>
    intro inS inD w hq ht
    have hq' : (inS, inD) = ((false : Bool), (false : Bool)) := hq
    injection hq' with hs hd
    subst hs; subst hd
    rcases Option.isSome_iff_exists.mp ht with ⟨v, hv⟩
    simp only [List.nil_append, heredoc_outside_quotes_go]
    simp only [heredocFind, hv]
    simp [sqc, dq]
  | cons c u ih =>
    intro inS inD w hq ht
    have hne : u ++ '<' :: '<' :: w ≠ [] := by simp
    rcases hl : u ++ '<' :: '<' :: w with _ | ⟨d, cs2⟩
    · exact absurd hl hne
    · simp only [List.cons_append, hl, heredoc_outside_quotes_go]
      simp only [qstate] at hq
      split_ifs with h1 h2 h3
      · have := ih _ _ w (by simpa [h1] using hq) ht
        rw [hl] at this
        exact this
      · have := ih _ _ w (by simpa [h1, h2] using hq) ht
        rw [hl] at this
        exact this
      · cases hf : heredocFind ('<' :: d :: cs2) with
        | some cap => simp
        | none =>
          have := ih _ _ w (by simpa [h1, h2, h3] using hq) ht
          rw [hl] at this
          simp only [hf]
          exact this
      · have := ih _ _ w (by simpa [h1, h2, h3] using hq) ht
        rw [hl] at this
        exact this

/-- With no unquoted double less-than on any line, the strip loop filters
every line normally. -/
theorem strip_go_filter : ∀ (L : List Str),
    (∀ line ∈ L, hasUnquotedLtLt false false line = false) →
    strip_lines_go none L = L.filter (fun l => !should_strip l) := by
  intro L
  induction L with
  | nil => intro _; rfl
  | cons line rest ih =>
    intro h
    have hd := h line (List.mem_cons_self line rest)
    have hnone := hoq_go_none line false false hd
    have htl := ih (fun x hx => h x (List.mem_cons_of_mem line hx))
    simp only [strip_lines_go, heredoc_outside_quotes] at *
    rw [hnone]
    by_cases hs : should_strip line
    · simp [hs, htl]
    · simp [hs, htl]

/-- C8: if every double less-than of a line lies inside quotes according
to the scanner's quote state, the heredoc detector reports nothing, and
the strip loop filters all such lines normally instead of passing them
through as heredoc body; a double less-than outside all quotes followed by
a delimiter shape is detected. -/
theorem C8_heredoc_quote_exclusion :
    (∀ (line : Str), hasUnquotedLtLt false false line = false →
       heredoc_outside_quotes line = none) ∧
    (∀ (u : Str) (w : Str), qstate false false u = (false, false) →
       (heredocTryAt ('<' :: '<' :: w)).isSome →
       (heredoc_outside_quotes (u ++ '<' :: '<' :: w)).isSome) ∧
    (∀ (L : List Str), (∀ line ∈ L, hasUnquotedLtLt false false line = false) →
       strip_lines_go none L = L.filter (fun l => !should_strip l)) :=
  ⟨fun line h => hoq_go_none line false false h,
   fun u w hq ht => hoq_go_detects u false false w hq ht,
   strip_go_filter⟩

/-- Witness for C8: a quoted double less-than is not an opener (and the
comment after it is stripped normally); an unquoted one is detected. -/
theorem C8_heredoc_quote_exclusion_witness :
    heredoc_outside_quotes (("echo ").data ++ [dq] ++ ("a <<EOF").data ++ [dq]) = none ∧
    (heredoc_outside_quotes ((("cat ").data ++ '<' :: '<' :: ("EOF").data))).isSome ∧
    strip_lines_go none [("echo ").data ++ [dq] ++ ("a <<EOF").data ++ [dq], ("# c").data]
      = [("echo ").data ++ [dq] ++ ("a <<EOF").data ++ [dq]] :=
  ⟨C8_heredoc_quote_exclusion.1 (("echo ").data ++ [dq] ++ ("a <<EOF").data ++ [dq])
     (by decide),
   C8_heredoc_quote_exclusion.2.1 (("cat ").data) (("EOF").data) (by decide) (by decide),
   by have := C8_heredoc_quote_exclusion.2.2
        [("echo ").data ++ [dq] ++ ("a <<EOF").data ++ [dq], ("# c").data]
        (by decide)
      rw [this]
      decide⟩

/-- The keyword-semicolon check depends on the previous character only
through its boundary status. -/
theorem containsKwSemi_congr (p q : Option Char) (l : Str) (h : bdryOk p = bdryOk q) :
    containsKwSemi p l = containsKwSemi q l := by
  cases l <;> simp [containsKwSemi, h]

/-- The nonempty suffixes of the three keyword-semicolon words, a set
closed under taking tails (used to show the rewrite never creates a new
occurrence). -/
def kwTails : List Str :=
  [("then;").data, ("hen;").data, ("en;").data, ("n;").data, [';'],
   ("do;").data, ("o;").data, ("else;").data, ("lse;").data, ("se;").data, ("e;").data]

/-- The keyword-semicolon rewrite never creates one of the tracked
suffixes at the front of its output: any such prefix was already there. -/
theorem fixKw_no_create : ∀ (p : Option Char) (l : Str), ∀ t ∈ kwTails,
    startsWith (fix_kw_go p l) t = true → startsWith l t = true := by
  intro p l
  induction p, l using fix_kw_go.induct with
  | case1 prev rest hb ih =>
    intro t ht hs
    simp only [kwTails, List.mem_cons, List.not_mem_nil, or_false] at ht
    rcases ht with rfl|rfl|rfl|rfl|rfl|rfl|rfl|rfl|rfl|rfl|rfl <;>
      simp_all [fix_kw_go, hb, startsWith]
  | case3 prev rest hb ih =>
    intro t ht hs
    simp only [kwTails, List.mem_cons, List.not_mem_nil, or_false] at ht
    rcases ht with rfl|rfl|rfl|rfl|rfl|rfl|rfl|rfl|rfl|rfl|rfl <;>
      simp_all [fix_kw_go, hb, startsWith]
  | case5 prev rest hb ih =>
    intro t ht hs
    simp only [kwTails, List.mem_cons, List.not_mem_nil, or_false] at ht
    rcases ht with rfl|rfl|rfl|rfl|rfl|rfl|rfl|rfl|rfl|rfl|rfl <;>
      simp_all [fix_kw_go, hb, startsWith]
  | case2 prev rest hb ih =>
    intro t ht hs
    simp only [kwTails, List.mem_cons, List.not_mem_nil, or_false] at ht
    rcases ht with rfl|rfl|rfl|rfl|rfl|rfl|rfl|rfl|rfl|rfl|rfl <;>
      simp_all [fix_kw_go, hb, startsWith]
  | case4 prev rest hb ih =>
    intro t ht hs
    simp only [kwTails, List.mem_cons, List.not_mem_nil, or_false] at ht
    rcases ht with rfl|rfl|rfl|rfl|rfl|rfl|rfl|rfl|rfl|rfl|rfl <;>
      simp_all [fix_kw_go, hb, startsWith]
  | case6 prev rest hb ih =>
    intro t ht hs
    simp only [kwTails, List.mem_cons, List.not_mem_nil, or_false] at ht
    rcases ht with rfl|rfl|rfl|rfl|rfl|rfl|rfl|rfl|rfl|rfl|rfl <;>
      simp_all [fix_kw_go, hb, startsWith]
  | case7 prev c cs h1 h2 h3 ih =>
    intro t ht hs
    have hfix : fix_kw_go prev (c :: cs) = c :: fix_kw_go (some c) cs := by
      rw [fix_kw_go.eq_def]
      split
      · rename_i heq; exact absurd heq (by intro h; injection h with a b; exact h1 _ a b)
      · rename_i heq; exact absurd heq (by intro h; injection h with a b; exact h2 _ a b)
      · rename_i heq; exact absurd heq (by intro h; injection h with a b; exact h3 _ a b)
      · rename_i heq; injection heq with e1 e2; rw [← e1, ← e2]
      · rename_i heq; exact absurd heq (by simp)
    rw [hfix] at hs
    simp only [kwTails, List.mem_cons, List.not_mem_nil, or_false] at ht
    rcases ht with rfl|rfl|rfl|rfl|rfl|rfl|rfl|rfl|rfl|rfl|rfl <;>
      (simp only [startsWith, Bool.and_eq_true] at hs ⊢) <;>
      first
        | exact ⟨hs.1, ih _ (by decide) hs.2⟩
        | simpa using hs
  | case8 prev =>
    intro t ht hs
    simp only [kwTails, List.mem_cons, List.not_mem_nil, or_false] at ht
    rcases ht with rfl|rfl|rfl|rfl|rfl|rfl|rfl|rfl|rfl|rfl|rfl <;> simp_all [fix_kw_go, startsWith]

/-- A prefix test yields a decomposition. -/
theorem startsWith_ex : ∀ (p l : Str), startsWith l p = true → ∃ r, l = p ++ r := by
  intro p
  induction p with
  | nil => intro l _; exact ⟨l, rfl⟩
  | cons c ps ih =>
    intro l h
    cases l with
    | nil => simp [startsWith] at h
    | cons d ls =>
      simp only [startsWith, Bool.and_eq_true, decide_eq_true_eq] at h
      obtain ⟨rfl, h2⟩ := h
      obtain ⟨r, hr⟩ := ih ls h2
      exact ⟨r, by rw [hr]; rfl⟩

/-- The output of the keyword-semicolon rewrite contains no
word-boundary-preceded keyword-semicolon occurrence. -/
theorem fix_kw_go_no_kwsemi : ∀ (p : Option Char) (l : Str),
    containsKwSemi p (fix_kw_go p l) = false := by
  intro p l
  induction p, l using fix_kw_go.induct with
  | case1 prev rest hb ih =>
    have hfix : fix_kw_go prev ('t' :: 'h' :: 'e' :: 'n' :: ';' ::rest)
        = 't' :: 'h' :: 'e' :: 'n' :: ' ' :: fix_kw_go (some ';') rest := by
      simp [fix_kw_go, hb]
    rw [hfix]
    simp [containsKwSemi, startsKwSemi, startsWith, bdryOk, isWordChar]
    rw [containsKwSemi_congr (some ' ') (some ';') _ (by decide)]
    exact ih
  | case3 prev rest hb ih =>
    have hfix : fix_kw_go prev ('d' :: 'o' :: ';' ::rest)
        = 'd' :: 'o' :: ' ' :: fix_kw_go (some ';') rest := by
      simp [fix_kw_go, hb]
    rw [hfix]
    simp [containsKwSemi, startsKwSemi, startsWith, bdryOk, isWordChar]
    rw [containsKwSemi_congr (some ' ') (some ';') _ (by decide)]
    exact ih
  | case5 prev rest hb ih =>
    have hfix : fix_kw_go prev ('e' :: 'l' :: 's' :: 'e' :: ';' ::rest)
        = 'e' :: 'l' :: 's' :: 'e' :: ' ' :: fix_kw_go (some ';') rest := by
      simp [fix_kw_go, hb]
    rw [hfix]
    simp [containsKwSemi, startsKwSemi, startsWith, bdryOk, isWordChar]
    rw [containsKwSemi_congr (some ' ') (some ';') _ (by decide)]
    exact ih
  | case2 prev rest hb ih =>
    have hb' : bdryOk prev = false := by simpa using hb
    have hfix : fix_kw_go prev ('t' :: 'h' :: 'e' :: 'n' :: ';' ::rest)
        = 't' :: fix_kw_go (some 't') ('h' :: 'e' :: 'n' :: ';' ::rest) := by
      simp [fix_kw_go, hb']
    rw [hfix]
    simp [containsKwSemi, hb',
      show bdryOk (some 't') = false from by decide,
      show bdryOk (some 'h') = false from by decide,
      show bdryOk (some 'e') = false from by decide,
      show bdryOk (some 'n') = false from by decide,
      show bdryOk (some 'd') = false from by decide,
      show bdryOk (some 'o') = false from by decide,
      show bdryOk (some 'l') = false from by decide,
      show bdryOk (some 's') = false from by decide] at ih ⊢
    exact ih
  | case4 prev rest hb ih =>
    have hb' : bdryOk prev = false := by simpa using hb
    have hfix : fix_kw_go prev ('d' :: 'o' :: ';' ::rest)
        = 'd' :: fix_kw_go (some 'd') ('o' :: ';' ::rest) := by
      simp [fix_kw_go, hb']
    rw [hfix]
    simp [containsKwSemi, hb',
      show bdryOk (some 't') = false from by decide,
      show bdryOk (some 'h') = false from by decide,
      show bdryOk (some 'e') = false from by decide,
      show bdryOk (some 'n') = false from by decide,
      show bdryOk (some 'd') = false from by decide,
      show bdryOk (some 'o') = false from by decide,
      show bdryOk (some 'l') = false from by decide,
      show bdryOk (some 's') = false from by decide] at ih ⊢
    exact ih
  | case6 prev rest hb ih =>
    have hb' : bdryOk prev = false := by simpa using hb
    have hfix : fix_kw_go prev ('e' :: 'l' :: 's' :: 'e' :: ';' ::rest)
        = 'e' :: fix_kw_go (some 'e') ('l' :: 's' :: 'e' :: ';' ::rest) := by
      simp [fix_kw_go, hb']
    rw [hfix]
    simp [containsKwSemi, hb',
      show bdryOk (some 't') = false from by decide,
      show bdryOk (some 'h') = false from by decide,
      show bdryOk (some 'e') = false from by decide,
      show bdryOk (some 'n') = false from by decide,
      show bdryOk (some 'd') = false from by decide,
      show bdryOk (some 'o') = false from by decide,
      show bdryOk (some 'l') = false from by decide,
      show bdryOk (some 's') = false from by decide] at ih ⊢
    exact ih
  | case7 prev c cs h1 h2 h3 ih =>
    have hfix : fix_kw_go prev (c :: cs) = c :: fix_kw_go (some c) cs := by
      rw [fix_kw_go.eq_def]
      split
      · rename_i heq; exact absurd heq (by intro h; injection h with a b; exact h1 _ a b)
      · rename_i heq; exact absurd heq (by intro h; injection h with a b; exact h2 _ a b)
      · rename_i heq; exact absurd heq (by intro h; injection h with a b; exact h3 _ a b)
      · rename_i heq; injection heq with e1 e2; rw [← e1, ← e2]
      · rename_i heq; exact absurd heq (by simp)
    rw [hfix]
    have hks : startsKwSemi (c :: fix_kw_go (some c) cs) = false := by
      by_contra hcon
      have hks' : startsKwSemi (c :: fix_kw_go (some c) cs) = true := by
        revert hcon; cases startsKwSemi (c :: fix_kw_go (some c) cs) <;> simp
      rw [← hfix] at hks'
      simp only [startsKwSemi, Bool.or_eq_true] at hks'
      rcases hks' with (h | h) | h
      · obtain ⟨r, hr⟩ := startsWith_ex _ _ (fixKw_no_create prev (c :: cs) _ (by decide) h)
        injection hr with e1 e2
        exact h1 r e1 e2
      · obtain ⟨r, hr⟩ := startsWith_ex _ _ (fixKw_no_create prev (c :: cs) _ (by decide) h)
        injection hr with e1 e2
        exact h2 r e1 e2
      · obtain ⟨r, hr⟩ := startsWith_ex _ _ (fixKw_no_create prev (c :: cs) _ (by decide) h)
        injection hr with e1 e2
        exact h3 r e1 e2
    simp [containsKwSemi, hks, ih]
  | case8 prev => rfl

/-- C6 amended: for every fuel and input, Join's output contains no
word-boundary-preceded `then;`, `do;` or `else;` — every result of
join_newlines passes through fix_keyword_semicolons, whose output never
contains such an occurrence. -/
theorem C6_no_keyword_semicolon : ∀ (fuel : Nat) (input : Str),
    containsKwSemi none (join_newlines fuel input) = false := by
  intro fuel input
  cases fuel with
  | zero => exact fix_kw_go_no_kwsemi none []
  | succ f => exact fix_kw_go_no_kwsemi none _

/-! ## Claim C9: properties of discover_variables and the rename map -/

theorem lexLe_total : ∀ a b : Str, lexLe a b = true ∨ lexLe b a = true := by
  intro a
  induction a with
  | nil => intro b; left; rfl
  | cons c cs ih =>
    intro b
    cases b with
    | nil => right; rfl
    | cons d ds =>
      by_cases h1 : c.toNat < d.toNat
      · left; simp [lexLe, h1]
      · by_cases h2 : d.toNat < c.toNat
        · right; simp [lexLe, h2]
        · rcases ih ds with h | h
          · left; simp [lexLe, h1, h2, h]
          · right; simp [lexLe, h1, h2, h]

theorem lexLe_trans : ∀ a b c : Str, lexLe a b = true → lexLe b c = true →
    lexLe a c = true := by
  intro a
  induction a with
  | nil => intro b c _ _; rfl
  | cons x xs ih =>
    intro b c hab hbc
    cases b with
    | nil => simp [lexLe] at hab
    | cons y ys =>
      cases c with
      | nil => simp [lexLe] at hbc
      | cons z zs =>
        simp only [lexLe] at hab hbc ⊢
        by_cases h1 : x.toNat < y.toNat
        · by_cases h2 : y.toNat < z.toNat
          · rw [if_pos (by omega)]
          · by_cases h3 : z.toNat < y.toNat
            · rw [if_neg h2, if_pos h3] at hbc; exact absurd hbc (by simp)
            · rw [if_pos (by omega)]
        · by_cases h4 : y.toNat < x.toNat
          · rw [if_neg h1, if_pos h4] at hab; exact absurd hab (by simp)
          · rw [if_neg h1, if_neg h4] at hab
            by_cases h2 : y.toNat < z.toNat
            · rw [if_pos (by omega)]
            · by_cases h3 : z.toNat < y.toNat
              · rw [if_neg h2, if_pos h3] at hbc; exact absurd hbc (by simp)
              · rw [if_neg h2, if_neg h3] at hbc
                rw [if_neg (by omega), if_neg (by omega)]
                exact ih ys zs hab hbc

instance : IsTotal Str DiscLe where
  total := by
    intro a b
    unfold DiscLe discoverLe
    by_cases h1 : b.length < a.length
    · left; simp [h1]
    · by_cases h2 : a.length < b.length
      · right; simp [h2]
      · have he : a.length = b.length := by omega
        rcases lexLe_total a b with h | h
        · left; simp [he, h]
        · right; simp [he, h]

instance : IsTrans Str DiscLe where
  trans := by
    intro a b c hab hbc
    unfold DiscLe discoverLe at *
    simp only [Bool.or_eq_true, Bool.and_eq_true, decide_eq_true_eq] at hab hbc ⊢
    rcases hab with h | ⟨he1, hl1⟩
    · rcases hbc with h2 | ⟨he2, hl2⟩
      · left; omega
      · left; omega
    · rcases hbc with h2 | ⟨he2, hl2⟩
      · left; omega
      · right; exact ⟨by omega, lexLe_trans a b c hl1 hl2⟩

theorem sortedChain_of_pairwise : ∀ l : List Str, List.Pairwise DiscLe l →
    sortedChain l = true := by
  intro l
  induction l with
  | nil => intro _; rfl
  | cons a r ih =>
    intro h
    cases r with
    | nil => rfl
    | cons b r2 =>
      rcases List.pairwise_cons.mp h with ⟨hrel, htail⟩
      have h1 : DiscLe a b := hrel b (List.mem_cons_self b r2)
      simp only [sortedChain, Bool.and_eq_true]
      exact ⟨h1, ih htail⟩


theorem parseVarName_lower (l n rest : Str)
    (h : parseVarName l = some (n, rest)) : lowerHead n = true := by
  cases l with
  | nil => simp [parseVarName] at h
  | cons c cs =>
    by_cases hc : isLowerChar c = true
    · simp only [parseVarName, if_pos hc, Option.some.injEq, Prod.mk.injEq] at h
      rw [← h.1]
      simpa [lowerHead] using hc
    · simp [parseVarName, hc] at h

theorem varNameFull_lower (w : Str) (h : varNameFull w = true) :
    lowerHead w = true := by
  cases w with
  | nil => simp [varNameFull, parseVarName] at h
  | cons c cs =>
    by_cases hc : isLowerChar c = true
    · simpa [lowerHead] using hc
    · simp [varNameFull, parseVarName, hc] at h

theorem reAssignmentCap_lower (l n : Str) (h : reAssignmentCap l = some n) :
    lowerHead n = true := by
  unfold reAssignmentCap at h
  split at h
  · rename_i heq
    injection h with h1
    rw [← h1]
    exact parseVarName_lower _ _ _ heq
  · exact Option.noConfusion h

theorem readFlagsName_lower : ∀ f l n, readFlagsName f l = some n →
    lowerHead n = true := by
  intro f
  induction f with
  | zero => intro l n h; simp [readFlagsName] at h
  | succ f ih =>
    intro l n h
    simp only [readFlagsName] at h
    split at h
    · split_ifs at h
      all_goals first
        | exact ih _ _ h
        | exact Option.noConfusion h
    · rw [Option.map_eq_some'] at h
      obtain ⟨⟨m, rest⟩, hp, hb⟩ := h
      rw [← hb]
      exact parseVarName_lower _ _ _ hp

theorem readTry_lower (l n : Str) (h : readTry l = some n) :
    lowerHead n = true := by
  unfold readTry at h
  split_ifs at h
  all_goals first
    | exact readFlagsName_lower _ _ _ h
    | exact Option.noConfusion h

theorem reReadCap_lower : ∀ l n, reReadCap l = some n → lowerHead n = true := by
  intro l
  induction l with
  | nil => intro n h; simp [reReadCap] at h
  | cons c cs ih =>
    intro n h
    simp only [reReadCap] at h
    split at h
    · rename_i heq
      injection h with h1
      rw [← h1]
      exact readTry_lower _ _ heq
    · exact ih _ h

theorem reForCap_lower (l n : Str) (h : reForCap l = some n) :
    lowerHead n = true := by
  unfold reForCap at h
  split_ifs at h
  all_goals try exact Option.noConfusion h
  all_goals split at h
  all_goals try exact Option.noConfusion h
  all_goals rename_i heq
  all_goals split_ifs at h
  all_goals try exact Option.noConfusion h
  all_goals (injection h with h1; rw [← h1]; exact parseVarName_lower _ _ _ heq)

theorem reArrayCap_lower (l n : Str) (h : reArrayCap l = some n) :
    lowerHead n = true := by
  unfold reArrayCap at h
  split at h
  all_goals try exact Option.noConfusion h
  all_goals rename_i heq
  all_goals split at h
  all_goals try exact Option.noConfusion h
  all_goals split_ifs at h
  all_goals try exact Option.noConfusion h
  all_goals (injection h with h1; rw [← h1]; exact parseVarName_lower _ _ _ heq)

theorem rePreIncrCap_lower (l n : Str) (h : rePreIncrCap l = some n) :
    lowerHead n = true := by
  unfold rePreIncrCap at h
  split at h
  all_goals try exact Option.noConfusion h
  all_goals split at h
  all_goals try exact Option.noConfusion h
  all_goals split_ifs at h
  all_goals try exact Option.noConfusion h
  all_goals split at h
  all_goals try exact Option.noConfusion h
  all_goals rename_i heq
  all_goals split at h
  all_goals try exact Option.noConfusion h
  all_goals (injection h with h1; rw [← h1]; exact parseVarName_lower _ _ _ heq)

theorem rePostIncrCap_lower (l n : Str) (h : rePostIncrCap l = some n) :
    lowerHead n = true := by
  unfold rePostIncrCap at h
  split at h
  all_goals try exact Option.noConfusion h
  all_goals split at h
  all_goals try exact Option.noConfusion h
  all_goals rename_i heq
  all_goals split_ifs at h
  all_goals try exact Option.noConfusion h
  all_goals split at h
  all_goals try exact Option.noConfusion h
  all_goals (injection h with h1; rw [← h1]; exact parseVarName_lower _ _ _ heq)

theorem insertVar_ok (v : Str) (vs : List Str) (hv : lowerHead v = true)
    (h : varsOk vs) : varsOk (insertVar v vs) := by
  unfold insertVar
  split_ifs with hc
  · exact h
  · have hv' : v ∉ vs := by simpa using hc
    constructor
    · simp [List.nodup_append, h.1, hv']
    · intro x hx
      rcases List.mem_append.mp hx with hx | hx
      · exact h.2 x hx
      · simp at hx; rw [hx]; exact hv

theorem foldl_names_ok (ws : List Str) : ∀ vs, varsOk vs →
    varsOk (ws.foldl (fun acc w => if varNameFull w then insertVar w acc else acc) vs) := by
  induction ws with
  | nil => intro vs h; exact h
  | cons w ws ih =>
    intro vs h
    simp only [List.foldl_cons]
    by_cases hw : varNameFull w = true
    · rw [if_pos hw]; exact ih _ (insertVar_ok _ _ (varNameFull_lower _ hw) h)
    · rw [if_neg hw]; exact ih _ h

theorem discover_from_segment_ok (seg : Str) (vs : List Str) (h : varsOk vs) :
    varsOk (discover_from_segment seg vs) := by
  unfold discover_from_segment
  split
  · rename_i heq
    split_ifs
    · exact insertVar_ok _ _ (reAssignmentCap_lower _ _ heq) h
    · exact h
  · split_ifs
    · exact foldl_names_ok _ _ h
    · split
      · rename_i heq; exact insertVar_ok _ _ (reReadCap_lower _ _ heq) h
      · split
        · rename_i heq; exact insertVar_ok _ _ (reForCap_lower _ _ heq) h
        · split
          · rename_i heq; exact insertVar_ok _ _ (reArrayCap_lower _ _ heq) h
          · split
            · rename_i heq; exact insertVar_ok _ _ (rePreIncrCap_lower _ _ heq) h
            · split
              · rename_i heq; exact insertVar_ok _ _ (rePostIncrCap_lower _ _ heq) h
              · exact h

theorem discoverSegments_ok : ∀ segs vs, varsOk vs →
    varsOk (discoverSegments vs segs) := by
  intro segs
  induction segs with
  | nil => intro vs h; exact h
  | cons s rest ih =>
    intro vs h
    simp only [discoverSegments]
    split_ifs
    · exact ih _ h
    · exact ih _ (discover_from_segment_ok _ _ h)

theorem discover_go_ok : ∀ lines skipNext vs, varsOk vs →
    varsOk (discover_go skipNext vs lines) := by
  intro lines
  induction lines with
  | nil => intro _ vs h; exact h
  | cons line rest ih =>
    intro sk vs h
    simp only [discover_go]
    split_ifs
    · exact ih _ _ h
    · exact ih _ _ h
    · exact ih _ _ h
    · exact ih _ _ (discoverSegments_ok _ _ h)

theorem build_rename_map_fst (vars : List Str) (pre : Str) :
    (build_rename_map vars pre).map Prod.fst = vars := by
  unfold build_rename_map
  rw [List.map_map]
  have h1 : (Prod.fst ∘ fun p : Nat × Str => (p.2, pre ++ natDigits p.1))
      = Prod.snd := rfl
  rw [h1, List.enum_map_snd]

theorem build_rename_map_snd (vars : List Str) (pre : Str) :
    (build_rename_map vars pre).map Prod.snd
      = (List.range vars.length).map (fun i => pre ++ natDigits i) := by
  unfold build_rename_map
  rw [List.map_map]
  have h1 : (Prod.snd ∘ fun p : Nat × Str => (p.2, pre ++ natDigits p.1))
      = (fun i => pre ++ natDigits i) ∘ Prod.fst := rfl
  rw [h1, ← List.map_map, List.enum_map_fst]

/-- Claim C9: the discovered-variable list has no duplicates, contains no
name matched by an ignore pattern, never contains IFS, is sorted by length
descending with ties alphabetical, and the rename map sends the variable at
position i to the prefix followed by the decimal digits of i, in order. -/
theorem C9_discover_properties (source : Str) (ignore : List (Str → Bool)) (pre : Str) :
    (discover_variables source ignore).Nodup ∧
    ((discover_variables source ignore).all
      (fun v => !(ignore.any (fun re => re v)))) = true ∧
    ((discover_variables source ignore).contains (("IFS").data)) = false ∧
    sortedChain (discover_variables source ignore) = true ∧
    (build_rename_map (discover_variables source ignore) pre).map Prod.fst
      = discover_variables source ignore ∧
    (build_rename_map (discover_variables source ignore) pre).map Prod.snd
      = (List.range (discover_variables source ignore).length).map
          (fun i => pre ++ natDigits i) := by
  unfold discover_variables
  set vars := discover_go 0 [] (strLines source) with hvars
  set kept := vars.filter (fun v => !ignore.any (fun re => re v)) with hkept
  have hok : varsOk vars :=
    discover_go_ok _ 0 [] ⟨List.nodup_nil, fun v hv => absurd hv (List.not_mem_nil v)⟩
  have hkN : kept.Nodup := hok.1.filter _
  have hperm : (kept.insertionSort DiscLe).Perm kept := List.perm_insertionSort _ _
  refine ⟨?_, ?_, ?_, ?_, ?_, ?_⟩
  · exact hperm.nodup_iff.mpr hkN
  · rw [List.all_eq_true]
    intro v hv
    have hvk : v ∈ kept := hperm.mem_iff.mp hv
    exact (List.mem_filter.mp hvk).2
  · have hm : ("IFS").data ∉ kept.insertionSort DiscLe := by
      intro hm
      have h1 : ("IFS").data ∈ kept := hperm.mem_iff.mp hm
      have h2 : ("IFS").data ∈ vars := List.mem_of_mem_filter h1
      exact absurd (hok.2 _ h2) (by decide)
    simpa using hm
  · exact sortedChain_of_pairwise _ (List.sorted_insertionSort _ _)
  · exact build_rename_map_fst _ _
  · exact build_rename_map_snd _ _

/-! ## Claim C7: conditional idempotence of the Strip phase -/

theorem strip_go_nil (st : Option Str) : strip_lines_go st [] = [] := by
  cases st <;> rfl

theorem strip_go_idem : ∀ (L : List Str) (st : Option Str),
    stripOkRun st L = true →
    strip_lines_go st (strip_lines_go st L) = strip_lines_go st L := by
  intro L
  induction L with
  | nil => intro st _; rw [strip_go_nil, strip_go_nil]
  | cons line rest ih =>
    intro st hrun
    cases st with
    | some d =>
      by_cases hd : rustTrim line = d
      · simp only [stripOkRun, if_pos hd] at hrun
        simp only [strip_lines_go, if_pos hd]
        rw [ih none hrun]
      · simp only [stripOkRun, if_neg hd] at hrun
        simp only [strip_lines_go, if_neg hd]
        rw [ih (some d) hrun]
    | none =>
      cases hh : heredoc_outside_quotes line with
      | some d =>
        simp only [stripOkRun, hh, Bool.and_eq_true, Bool.not_eq_true'] at hrun
        obtain ⟨hs, hrun⟩ := hrun
        simp only [strip_lines_go, hh, hs, Bool.false_eq_true, if_false]
        rw [ih (some d) hrun]
      | none =>
        simp only [stripOkRun, hh] at hrun
        by_cases hs : should_strip line = true
        · simp only [strip_lines_go, hh, if_pos hs]
          exact ih none hrun
        · simp only [strip_lines_go, hh, if_neg hs]
          rw [ih none hrun]

theorem strip_go_subset : ∀ (L : List Str) (st : Option Str) (l : Str),
    l ∈ strip_lines_go st L → l ∈ L := by
  intro L
  induction L with
  | nil => intro st l h; rw [strip_go_nil] at h; exact absurd h (List.not_mem_nil l)
  | cons line rest ih =>
    intro st l h
    cases st with
    | some d =>
      simp only [strip_lines_go] at h
      rcases List.mem_cons.mp h with h | h
      · exact h ▸ List.mem_cons_self _ _
      · by_cases hd : rustTrim line = d
        · rw [if_pos hd] at h; exact List.mem_cons_of_mem _ (ih _ _ h)
        · rw [if_neg hd] at h; exact List.mem_cons_of_mem _ (ih _ _ h)
    | none =>
      simp only [strip_lines_go] at h
      by_cases hs : should_strip line = true
      · rw [if_pos hs] at h
        exact List.mem_cons_of_mem _ (ih _ _ h)
      · rw [if_neg hs] at h
        rcases List.mem_cons.mp h with h | h
        · exact h ▸ List.mem_cons_self _ _
        · exact List.mem_cons_of_mem _ (ih _ _ h)

theorem parseWordRun_ne (l w r : Str) (h : parseWordRun l = some (w, r)) :
    w ≠ [] := by
  unfold parseWordRun at h
  split_ifs at h with hc
  injection h with h1
  intro hw
  rw [Prod.ext_iff] at h1
  exact hc (by rw [show List.takeWhile isWordChar l = w from h1.1, hw])

theorem heredocTryAt_ne (l d : Str) (h : heredocTryAt l = some d) : d ≠ [] := by
  unfold heredocTryAt at h
  split at h
  · split at h
    · rename_i heq
      injection h with h1
      exact h1 ▸ parseWordRun_ne _ _ _ heq
    · exact Option.noConfusion h
  · exact Option.noConfusion h

theorem heredocFind_ne : ∀ l d, heredocFind l = some d → d ≠ [] := by
  intro l
  induction l with
  | nil => intro d h; exact Option.noConfusion h
  | cons c cs ih =>
    intro d h
    simp only [heredocFind] at h
    split at h
    · rename_i heq
      injection h with h1
      exact h1 ▸ heredocTryAt_ne _ _ heq
    · exact ih _ h

theorem heredoc_go_ne : ∀ l inS inD d,
    heredoc_outside_quotes_go inS inD l = some d → d ≠ [] := by
  intro l
  induction l with
  | nil => intro inS inD d h; exact Option.noConfusion h
  | cons c cs ih =>
    intro inS inD d h
    cases cs with
    | nil => exact Option.noConfusion h
    | cons c2 cs2 =>
      simp only [heredoc_outside_quotes_go] at h
      split_ifs at h
      all_goals try exact ih _ _ _ h
      split at h
      · rename_i heq
        injection h with h1
        exact h1 ▸ heredocFind_ne _ _ heq
      · exact ih _ _ _ h

theorem heredoc_ne (l d : Str) (h : heredoc_outside_quotes l = some d) :
    d ≠ [] := heredoc_go_ne _ _ _ _ h

theorem strip_go_last : ∀ (L : List Str) (st : Option Str),
    stripOkRun st L = true → (∀ d, st = some d → d ≠ []) →
    (strip_lines_go st L).getLast? ≠ some [] := by
  intro L
  induction L with
  | nil =>
    intro st _ _
    rw [strip_go_nil]
    simp
  | cons line rest ih =>
    intro st hrun hne
    cases st with
    | some d =>
      have hdne : d ≠ [] := hne d rfl
      by_cases hd : rustTrim line = d
      · simp only [stripOkRun, if_pos hd] at hrun
        simp only [strip_lines_go, if_pos hd]
        cases hgo : strip_lines_go none rest with
        | nil =>
          simp only [List.getLast?_singleton]
          intro hc
          injection hc with hc
          rw [hc] at hd
          exact hdne (by simpa [rustTrim] using hd.symm)
        | cons a t =>
          rw [List.getLast?_cons_cons]
          rw [← hgo]
          exact ih none hrun (fun d h => Option.noConfusion h)
      · simp only [stripOkRun, if_neg hd] at hrun
        simp only [strip_lines_go, if_neg hd]
        cases rest with
        | nil => simp [stripOkRun] at hrun
        | cons r rs =>
          have hgo : strip_lines_go (some d) (r :: rs)
              = r :: (if rustTrim r = d then strip_lines_go none rs
                      else strip_lines_go (some d) rs) := rfl
          rw [hgo, List.getLast?_cons_cons, ← hgo]
          exact ih (some d) hrun hne
    | none =>
      cases hh : heredoc_outside_quotes line with
      | some d =>
        simp only [stripOkRun, hh, Bool.and_eq_true, Bool.not_eq_true'] at hrun
        obtain ⟨hs, hrun⟩ := hrun
        simp only [strip_lines_go, hh, hs, Bool.false_eq_true, if_false]
        cases rest with
        | nil => simp [stripOkRun] at hrun
        | cons r rs =>
          have hgo : strip_lines_go (some d) (r :: rs)
              = r :: (if rustTrim r = d then strip_lines_go none rs
                      else strip_lines_go (some d) rs) := rfl
          rw [hgo, List.getLast?_cons_cons, ← hgo]
          exact ih (some d) hrun (fun d' h => (Option.some.injEq _ _ ▸ h) ▸ heredoc_ne _ _ hh)
      | none =>
        simp only [stripOkRun, hh] at hrun
        by_cases hs : should_strip line = true
        · simp only [strip_lines_go, hh, if_pos hs]
          exact ih none hrun (fun d h => Option.noConfusion h)
        · simp only [strip_lines_go, hh, if_neg hs]
          cases hgo : strip_lines_go none rest with
          | nil =>
            simp only [List.getLast?_singleton]
            intro hc
            injection hc with hc
            rw [hc] at hs
            exact hs (by decide)
          | cons a t =>
            rw [List.getLast?_cons_cons]
            rw [← hgo]
            exact ih none hrun (fun d h => Option.noConfusion h)

theorem splitNl_ne_nil : ∀ s : Str, splitNl s ≠ [] := by
  intro s
  cases s with
  | nil => simp [splitNl]
  | cons c cs =>
    simp only [splitNl]
    split_ifs
    · simp
    · split <;> simp

theorem splitNl_nlFree : ∀ (s : Str) (l : Str), l ∈ splitNl s → '\n' ∉ l := by
  intro s
  induction s with
  | nil =>
    intro l hl
    simp [splitNl] at hl
    simp [hl]
  | cons c cs ih =>
    intro l hl
    simp only [splitNl] at hl
    split_ifs at hl with hc
    · rcases List.mem_cons.mp hl with h | h
      · simp [h]
      · exact ih _ h
    · split at hl
      · rename_i heq
        exact absurd heq (splitNl_ne_nil cs)
      · rename_i s0 ss heq
        rcases List.mem_cons.mp hl with h | h
        · intro hn
          rw [h] at hn
          rcases List.mem_cons.mp hn with h2 | h2
          · exact hc h2.symm
          · exact ih s0 (heq ▸ List.mem_cons_self _ _) h2
        · exact ih _ (heq ▸ List.mem_cons_of_mem _ h)

theorem splitNl_chars : ∀ (s : Str) (l : Str), l ∈ splitNl s → ∀ c ∈ l, c ∈ s := by
  intro s
  induction s with
  | nil =>
    intro l hl
    simp [splitNl] at hl
    simp [hl]
  | cons c cs ih =>
    intro l hl d hd
    simp only [splitNl] at hl
    split_ifs at hl with hc
    · rcases List.mem_cons.mp hl with h | h
      · rw [h] at hd; exact absurd hd (List.not_mem_nil d)
      · exact List.mem_cons_of_mem _ (ih _ h d hd)
    · split at hl
      · rename_i heq
        exact absurd heq (splitNl_ne_nil cs)
      · rename_i s0 ss heq
        rcases List.mem_cons.mp hl with h | h
        · rw [h] at hd
          rcases List.mem_cons.mp hd with h2 | h2
          · exact h2 ▸ List.mem_cons_self _ _
          · exact List.mem_cons_of_mem _ (ih s0 (heq ▸ List.mem_cons_self _ _) d h2)
        · exact List.mem_cons_of_mem _ (ih _ (heq ▸ List.mem_cons_of_mem _ h) d hd)

theorem splitNl_head_decomp : ∀ (s l : Str) (ss : List Str),
    splitNl s = l :: ss →
    (s = l ∧ ss = []) ∨ ∃ t, s = l ++ '\n' :: t ∧ splitNl t = ss := by
  intro s
  induction s with
  | nil =>
    intro l ss h
    simp only [splitNl] at h
    injection h with h1 h2
    exact Or.inl ⟨h1, h2.symm⟩
  | cons c cs ih =>
    intro l ss h
    simp only [splitNl] at h
    split_ifs at h with hc
    · injection h with h1 h2
      refine Or.inr ⟨cs, ?_, h2⟩
      rw [← h1, hc]
      rfl
    · split at h
      · rename_i heq
        exact absurd heq (splitNl_ne_nil cs)
      · rename_i s0 ss0 heq
        injection h with h1 h2
        rcases ih s0 ss0 heq with ⟨hcs, hss⟩ | ⟨t, hcs, ht⟩
        · left
          constructor
          · rw [← h1, hcs]
          · rw [← h2, hss]
        · right
          refine ⟨t, ?_, h2 ▸ ht⟩
          rw [← h1, hcs]
          rfl

theorem splitNl_of_nlFree : ∀ l : Str, '\n' ∉ l → splitNl l = [l] := by
  intro l
  induction l with
  | nil => intro _; rfl
  | cons c cs ih =>
    intro h
    have hc : c ≠ '\n' := fun hc => h (hc ▸ List.mem_cons_self _ _)
    have hcs : '\n' ∉ cs := fun hm => h (List.mem_cons_of_mem _ hm)
    simp only [splitNl, if_neg hc, ih hcs]

theorem splitNl_append_nl : ∀ (l t : Str), '\n' ∉ l →
    splitNl (l ++ '\n' :: t) = l :: splitNl t := by
  intro l
  induction l with
  | nil =>
    intro t _
    simp [splitNl]
  | cons c cs ih =>
    intro t h
    have hc : c ≠ '\n' := fun hc => h (hc ▸ List.mem_cons_self _ _)
    have hcs : '\n' ∉ cs := fun hm => h (List.mem_cons_of_mem _ hm)
    simp only [List.cons_append, splitNl, if_neg hc, List.append_eq, ih t hcs]

theorem quadTail_eq (cs : Str) (h : quadTail cs = true) :
    ∃ r, cs = '#' :: '!' :: '/' :: r := by
  unfold quadTail at h
  split at h
  · rename_i x
    exact ⟨x, rfl⟩
  · exact Bool.noConfusion h

theorem ns_cons (c : Char) (cs : Str) (hq : quadTail cs = false) :
    normalizeShebang (c :: cs) = c :: normalizeShebang cs := by
  rw [normalizeShebang.eq_def]
  split
  · rename_i heq
    exact List.noConfusion heq
  · rename_i c1 rest heq
    injection heq with h1 h2
    rw [h2] at hq
    simp [quadTail] at hq
  · rename_i c1 cs1 heq
    injection heq with h1 h2
    rw [h1, h2]

theorem free_cons (c : Char) (cs : Str) (hq : quadTail cs = false) :
    midShebangFree (c :: cs) = midShebangFree cs := by
  rw [midShebangFree.eq_def]
  split
  · rename_i heq
    exact List.noConfusion heq
  · rename_i c1 rest heq
    injection heq with h1 h2
    rw [h2] at hq
    simp [quadTail] at hq
  · rename_i c1 cs1 heq
    injection heq with h1 h2
    rw [h2]

theorem free_quad (c : Char) (r : Str) :
    midShebangFree (c :: '#' :: '!' :: '/' :: r)
      = if c = '\n' then midShebangFree ('#' :: '!' :: '/' :: r) else false := by
  rfl

theorem free_cons_inv (c : Char) (t : Str) (h : midShebangFree (c :: t) = true) :
    midShebangFree t = true := by
  by_cases hq : quadTail t = true
  · obtain ⟨r, rfl⟩ := quadTail_eq _ hq
    rw [free_quad] at h
    split_ifs at h
    exact h
  · rw [free_cons _ _ (Bool.not_eq_true _ ▸ hq)] at h
    exact h

theorem free_append_left : ∀ (u v : Str),
    midShebangFree (u ++ v) = true → midShebangFree u = true := by
  intro u
  induction u with
  | nil => intro v _; rfl
  | cons c u' ih =>
    intro v h
    rw [List.cons_append] at h
    by_cases hq' : quadTail u' = true
    · obtain ⟨r, rfl⟩ := quadTail_eq _ hq'
      have hqv : ('#' :: '!' :: '/' :: r) ++ v = '#' :: '!' :: '/' :: (r ++ v) := by
        simp
      rw [hqv, free_quad] at h
      split_ifs at h with hc
      rw [free_quad, if_pos hc]
      exact ih v (by simpa using h)
    · rw [free_cons _ _ (Bool.not_eq_true _ ▸ hq')]
      exact ih v (free_cons_inv _ _ h)

theorem free_append_right : ∀ (u v : Str),
    midShebangFree (u ++ v) = true → midShebangFree v = true := by
  intro u
  induction u with
  | nil => intro v h; exact h
  | cons c u' ih =>
    intro v h
    rw [List.cons_append] at h
    exact ih v (free_cons_inv _ _ h)

theorem quadTail_append_nl (l s : Str) (hq : quadTail l = false) :
    quadTail (l ++ '\n' :: s) = false := by
  rcases l with _ | ⟨a, _ | ⟨b, _ | ⟨e, t⟩⟩⟩
  · unfold quadTail
    split
    · rename_i heq
      simp at heq
    · rfl
  · unfold quadTail
    split
    · rename_i heq
      simp at heq
    · rfl
  · unfold quadTail
    split
    · rename_i heq
      simp at heq
    · rfl
  · unfold quadTail
    split
    · rename_i heq
      simp only [List.cons_append, List.cons.injEq] at heq
      obtain ⟨h1, h2, h3, _⟩ := heq
      rw [h1, h2, h3] at hq
      simp [quadTail] at hq
    · rfl

theorem free_append_nl : ∀ (l s : Str), '\n' ∉ l →
    midShebangFree l = true → midShebangFree s = true →
    midShebangFree (l ++ '\n' :: s) = true := by
  intro l
  induction l with
  | nil =>
    intro s _ _ hs
    by_cases hq : quadTail s = true
    · obtain ⟨r, rfl⟩ := quadTail_eq _ hq
      rw [List.nil_append, free_quad, if_pos rfl]
      exact hs
    · rw [List.nil_append, free_cons _ _ (Bool.not_eq_true _ ▸ hq)]
      exact hs
  | cons c l' ih =>
    intro s hnl hl hs
    have hcne : c ≠ '\n' := fun hc => hnl (hc ▸ List.mem_cons_self _ _)
    have hnl' : '\n' ∉ l' := fun hm => hnl (List.mem_cons_of_mem _ hm)
    by_cases hq' : quadTail l' = true
    · obtain ⟨r, rfl⟩ := quadTail_eq _ hq'
      rw [free_quad] at hl
      split_ifs at hl with hc
      exact absurd hc hcne
    · have hq'f : quadTail l' = false := Bool.not_eq_true _ ▸ hq'
      rw [List.cons_append, free_cons _ _ (quadTail_append_nl _ _ hq'f)]
      rw [free_cons _ _ hq'f] at hl
      exact ih s hnl' hl hs

theorem joinNl_singleton (l : Str) : joinNl [l] = l := by
  simp [joinNl]

theorem joinNl_cons_cons (l r : Str) (rs : List Str) :
    joinNl (l :: r :: rs) = l ++ '\n' :: joinNl (r :: rs) := by
  simp [joinNl, List.intersperse_cons_cons]

theorem free_join : ∀ R : List Str,
    (∀ l ∈ R, '\n' ∉ l ∧ midShebangFree l = true) →
    midShebangFree (joinNl R) = true := by
  intro R
  induction R with
  | nil => intro _; rfl
  | cons l R' ih =>
    intro h
    cases R' with
    | nil =>
      rw [joinNl_singleton]
      exact (h l (List.mem_cons_self _ _)).2
    | cons r rs =>
      rw [joinNl_cons_cons]
      refine free_append_nl _ _ (h l (List.mem_cons_self _ _)).1
        (h l (List.mem_cons_self _ _)).2 ?_
      exact ih (fun x hx => h x (List.mem_cons_of_mem _ hx))

theorem free_nsFixed : ∀ s : Str, midShebangFree s = true →
    normalizeShebang s = s := by
  intro s
  induction s with
  | nil => intro _; rfl
  | cons c cs ih =>
    intro h
    by_cases hq : quadTail cs = true
    · obtain ⟨r, rfl⟩ := quadTail_eq _ hq
      rw [free_quad] at h
      split_ifs at h with hc
      subst hc
      rw [show normalizeShebang ('\n' :: '#' :: '!' :: '/' :: r)
          = '\n' :: normalizeShebang ('#' :: '!' :: '/' :: r) from by
        simp [normalizeShebang]]
      rw [ih h]
    · have hqf : quadTail cs = false := Bool.not_eq_true _ ▸ hq
      rw [ns_cons _ _ hqf]
      rw [free_cons _ _ hqf] at h
      rw [ih h]

theorem nsFixed_free : ∀ s : Str, normalizeShebang s = s →
    midShebangFree s = true := by
  intro s
  induction s with
  | nil => intro _; rfl
  | cons c cs ih =>
    intro h
    by_cases hq : quadTail cs = true
    · obtain ⟨r, rfl⟩ := quadTail_eq _ hq
      by_cases hc : c = '\n'
      · subst hc
        rw [show normalizeShebang ('\n' :: '#' :: '!' :: '/' :: r)
            = '\n' :: normalizeShebang ('#' :: '!' :: '/' :: r) from by
          simp [normalizeShebang]] at h
        injection h with _ h2
        rw [free_quad, if_pos rfl]
        exact ih h2
      · rw [show normalizeShebang (c :: '#' :: '!' :: '/' :: r)
            = c :: '\n' :: '#' :: '!' :: '/' :: normalizeShebang r from by
          simp [normalizeShebang, hc]] at h
        injection h with _ h2
        injection h2 with h3 _
        exact absurd h3 (by decide)
    · have hqf : quadTail cs = false := Bool.not_eq_true _ ▸ hq
      rw [ns_cons _ _ hqf] at h
      injection h with _ h2
      rw [free_cons _ _ hqf]
      exact ih h2

theorem splitNl_free_n : ∀ (n : Nat) (s : Str), s.length ≤ n →
    midShebangFree s = true → ∀ l ∈ splitNl s, midShebangFree l = true := by
  intro n
  induction n with
  | zero =>
    intro s hlen _ l hl
    have hs : s = [] := List.length_eq_zero.mp (Nat.le_zero.mp hlen)
    subst hs
    simp [splitNl] at hl
    rw [hl]
    rfl
  | succ n ih =>
    intro s hlen hfree l hl
    cases hsp : splitNl s with
    | nil => exact absurd hsp (splitNl_ne_nil s)
    | cons l0 ss =>
      rw [hsp] at hl
      rcases splitNl_head_decomp s l0 ss hsp with ⟨hs, hss⟩ | ⟨t, hs, ht⟩
      · subst hs
        rw [hss] at hl
        rcases List.mem_cons.mp hl with h | h
        · rw [h]; exact hfree
        · exact absurd h (List.not_mem_nil l)
      · rcases List.mem_cons.mp hl with h | h
        · rw [h]
          rw [hs] at hfree
          exact free_append_left _ _ hfree
        · have hfreet : midShebangFree t = true := by
            have h1 := free_append_right _ _ (hs ▸ hfree)
            exact free_cons_inv _ _ h1
          have hlent : t.length ≤ n := by
            have := congrArg List.length hs
            simp [List.length_append] at this
            omega
          exact ih t hlent hfreet l (ht ▸ h)

theorem splitNl_free (s : Str) (hfree : midShebangFree s = true) :
    ∀ l ∈ splitNl s, midShebangFree l = true :=
  splitNl_free_n s.length s (Nat.le_refl _) hfree

theorem dropCr_of_noCr (l : Str) (h : '\r' ∉ l) : dropCr l = l := by
  unfold dropCr
  split_ifs with hc
  · obtain ⟨hne, heq⟩ := List.mem_getLast?_eq_getLast (Option.mem_def.mpr hc)
    exact absurd (heq ▸ List.getLast_mem hne) h
  · rfl

theorem splitNl_joinNl : ∀ R : List Str, R ≠ [] → (∀ l ∈ R, '\n' ∉ l) →
    splitNl (joinNl R) = R := by
  intro R
  induction R with
  | nil => intro h _; exact absurd rfl h
  | cons l R' ih =>
    intro _ hnl
    cases R' with
    | nil =>
      rw [joinNl_singleton]
      exact splitNl_of_nlFree l (hnl l (List.mem_cons_self _ _))
    | cons r rs =>
      rw [joinNl_cons_cons, splitNl_append_nl _ _ (hnl l (List.mem_cons_self _ _)),
        ih (List.cons_ne_nil r rs) (fun x hx => hnl x (List.mem_cons_of_mem _ hx))]

theorem strLines_mem (s l : Str) (h : l ∈ strLines s) :
    ∃ l2, l2 ∈ splitNl s ∧ l = dropCr l2 := by
  unfold strLines at h
  split_ifs at h with h0 h1
  · exact absurd h (List.not_mem_nil l)
  · obtain ⟨l2, hl2, hd⟩ := List.mem_map.mp h
    exact ⟨l2, (List.dropLast_sublist _).subset hl2, hd.symm⟩
  · obtain ⟨l2, hl2, hd⟩ := List.mem_map.mp h
    exact ⟨l2, hl2, hd.symm⟩

theorem strLines_joinNl (R : List Str)
    (hnl : ∀ l ∈ R, '\n' ∉ l) (hcr : ∀ l ∈ R, '\r' ∉ l)
    (hlast : R.getLast? ≠ some []) :
    strLines (joinNl R) = R := by
  cases R with
  | nil => simp [strLines, joinNl]
  | cons l R' =>
    have hjoin_ne : joinNl (l :: R') ≠ [] := by
      cases R' with
      | nil =>
        rw [joinNl_singleton]
        intro hc
        exact hlast (by rw [hc]; rfl)
      | cons r rs =>
        rw [joinNl_cons_cons]
        intro hc
        rcases List.append_eq_nil.mp hc with ⟨_, hc2⟩
        exact List.noConfusion hc2
    have hsp : splitNl (joinNl (l :: R')) = l :: R' :=
      splitNl_joinNl _ (List.cons_ne_nil l R') hnl
    unfold strLines
    rw [if_neg hjoin_ne, hsp, if_neg hlast]
    have hid : ∀ y ∈ l :: R', dropCr y = y := fun y hy => dropCr_of_noCr y (hcr y hy)
    calc (l :: R').map dropCr = (l :: R').map id := List.map_congr_left hid
      _ = l :: R' := List.map_id _

theorem strLines_props (x : Str) (hcr : ∀ c ∈ x, c ≠ '\r')
    (hf : midShebangFree x = true) :
    ∀ l ∈ strLines x, '\n' ∉ l ∧ '\r' ∉ l ∧ midShebangFree l = true := by
  intro l hl
  obtain ⟨l2, hl2, heq⟩ := strLines_mem x l hl
  have hcr2 : '\r' ∉ l2 := fun hm => hcr '\r' (splitNl_chars x l2 hl2 '\r' hm) rfl
  have heq2 : l = l2 := by rw [heq, dropCr_of_noCr _ hcr2]
  subst heq2
  exact ⟨splitNl_nlFree x l hl2, hcr2, splitNl_free x hf l hl2⟩

/-- Claim C7 (amended): Strip is idempotent on inputs with no carriage
returns that are fixed points of the mid-line-shebang normalization and
whose heredoc runs are well-formed (opener lines survive the filter and
every opened heredoc is closed). -/
theorem C7_strip_idempotent_conditional (x : Str)
    (hcr : x.all (fun c => c ≠ '\r') = true)
    (hns : normalizeShebang x = x)
    (hrun : stripOkRun none (strLines x) = true) :
    strip_lines (joinNl (strip_lines x)) = strip_lines x := by
  have hcr' : ∀ c ∈ x, c ≠ '\r' := by
    intro c hc
    have h1 := (List.all_eq_true.mp hcr) c hc
    simpa using h1
  have hfree : midShebangFree x = true := nsFixed_free x hns
  have hL : strip_lines x = strip_lines_go none (strLines x) := by
    unfold strip_lines
    rw [hns]
  have hprops := strLines_props x hcr' hfree
  rw [hL]
  set R := strip_lines_go none (strLines x) with hR
  have hRsub : ∀ l ∈ R, l ∈ strLines x := fun l h => strip_go_subset _ _ _ h
  have hRp : ∀ l ∈ R, '\n' ∉ l ∧ '\r' ∉ l ∧ midShebangFree l = true :=
    fun l h => hprops l (hRsub l h)
  have hlastR : R.getLast? ≠ some [] :=
    strip_go_last _ none hrun (fun d h => Option.noConfusion h)
  have hstr : strLines (joinNl R) = R :=
    strLines_joinNl R (fun l h => (hRp l h).1) (fun l h => (hRp l h).2.1) hlastR
  have hnsR : normalizeShebang (joinNl R) = joinNl R :=
    free_nsFixed _ (free_join R (fun l h => ⟨(hRp l h).1, (hRp l h).2.2⟩))
  show strip_lines (joinNl R) = R
  unfold strip_lines
  rw [hnsR, hstr, hR]
  exact strip_go_idem _ none hrun

theorem C7_strip_idempotent_witness :
    strip_lines (joinNl (strip_lines (("cat <<EOF\n# k\nEOF").data)))
      = strip_lines (("cat <<EOF\n# k\nEOF").data) :=
  C7_strip_idempotent_conditional _ (by decide) (by decide) (by decide)
